import Mathlib

/- Verification development for the ts-mm-calenderer scheduling core.

   Embedded source code:
   * src/src/app.py, create_schedule (lines 263-337): the rotation scheduler,
     which pairs mentor j in slot i with company (i + j) % num_companies.
   * src/app.py, create_schedule (lines 91-264): the duplicate-avoidance
     scheduler, which skips one mentor per slot when mentors outnumber
     companies, assigns each remaining mentor the first not-yet-assigned
     company it has not met today, and rotates the company list between slots.
   * src/config/configure_schedule.py, generate_meeting_times (lines 28-88).
   * src/app.py, generate_time_slots (lines 40-81).
   * src/app.py, mentor-detail construction (lines 99-119), and
     src/config/refresh_mentors.py, convert_records_to_dataframe (lines 76-128).

   Timestamps are modelled as minutes (Nat).  The Python code formats them as
   ISO strings whose lexicographic order within one day agrees with minute
   order, so ordering and equality facts transfer.  Python exceptions are
   modelled with Except String; a loop that can raise is embedded as a
   recursion in the Except monad that errors exactly where Python raises. -/

/-- A time slot of the day: `start`/`stop` are the slot's start and end
timestamps in minutes (Python's `slot['start']`, `slot['end']`). -/
structure Slot where
  start : Nat
  stop : Nat
deriving DecidableEq, Repr

/-- A scheduled meeting record.  The Python dicts also carry `description`,
`attendees`, `location` and `date`; these are presentation-only strings that
none of the verified properties depend on, so they are omitted here.  The
string "BREAK" in `company` is the break sentinel used by the source. -/
structure Meeting where
  summary : String
  mentor : String
  company : String
  start_time : Nat
  end_time : Nat
deriving DecidableEq, Repr

/-- The (mentor, company) pairs of the non-BREAK meetings of a schedule
(src/app.py lines 246-262 iterate exactly these for duplicate checking). -/
def nonBreakPairs (sched : List Meeting) : List (String × String) :=
  (sched.filter (fun m => decide (m.company ≠ "BREAK"))).map (fun m => (m.mentor, m.company))

/-- Per-slot exclusivity, with meetings of one slot identified by their shared
start timestamp: any two meetings at the same start time involve different
mentors, and different companies when both are real (non-BREAK) meetings. -/
@[reducible] def slotExclusive (sched : List Meeting) : Prop :=
  List.Pairwise
    (fun x y => x.start_time = y.start_time →
      x.mentor ≠ y.mentor ∧
        (x.company ≠ "BREAK" → y.company ≠ "BREAK" → x.company ≠ y.company))
    sched

/-- The schedule is non-decreasing by slot start time. -/
@[reducible] def sortedByStart (sched : List Meeting) : Prop :=
  List.Pairwise (fun x y => x.start_time ≤ y.start_time) sched

/-- Within one slot (same start time), meetings appear in the order of the
mentors' positions in the roster list. -/
@[reducible] def rosterOrdered (mentors : List String) (sched : List Meeting) : Prop :=
  List.Pairwise
    (fun x y => x.start_time = y.start_time →
      mentors.indexOf x.mentor ≤ mentors.indexOf y.mentor)
    sched

namespace Rotation

/-- One meeting entry of src/src/app.py create_schedule (lines 291-332):
`company_index = (slot_index + mentor_index) % num_companies`;
`company = company_list[company_index]`.  `List.getD _ ""` stands for Python
list indexing, which is always in range here because the index is a remainder
modulo the list length. -/
def meetingFor (companies : List String) (si : Nat) (slot : Slot) (mi : Nat)
    (mentor : String) : Meeting :=
  let company := companies.getD ((si + mi) % companies.length) ""
  { summary := mentor ++ " <> " ++ company
    mentor := mentor
    company := company
    start_time := slot.start
    end_time := slot.stop }

/-- The inner `for mentor_index, mentor in enumerate(mentors)` loop of
src/src/app.py create_schedule.  Python raises ZeroDivisionError at
`% num_companies` on the first iteration when the company list is empty. -/
def mentorLoop (companies : List String) (si : Nat) (slot : Slot) :
    Nat → List String → Except String (List Meeting)
  | _, [] => Except.ok []
  | mi, mentor :: rest =>
    if companies.length = 0 then
      Except.error "ZeroDivisionError: integer division or modulo by zero"
    else
      match mentorLoop companies si slot (mi + 1) rest with
      | Except.error e => Except.error e
      | Except.ok tail => Except.ok (meetingFor companies si slot mi mentor :: tail)

/-- The outer `for slot_index, slot in enumerate(date_time_slots)` loop of
src/src/app.py create_schedule, accumulating `schedule.append(...)`. -/
def slotLoop (mentors companies : List String) :
    Nat → List Slot → Except String (List Meeting)
  | _, [] => Except.ok []
  | si, slot :: rest =>
    match mentorLoop companies si slot 0 mentors with
    | Except.error e => Except.error e
    | Except.ok block =>
      match slotLoop mentors companies (si + 1) rest with
      | Except.error e => Except.error e
      | Except.ok tail => Except.ok (block ++ tail)

/-- src/src/app.py create_schedule (lines 263-337), for one target date:
iterate over slots, and within a slot over mentors, pairing mentor `mi` in
slot `si` with company number `(si + mi) % companies.length`. -/
def create_schedule (mentors companies : List String) (slots : List Slot) :
    Except String (List Meeting) :=
  slotLoop mentors companies 0 slots

/-- The list of meetings produced for one slot (pure form of `mentorLoop`). -/
def slotBlock (mentors companies : List String) (si : Nat) (slot : Slot) :
    List Meeting :=
  (List.range mentors.length).map
    (fun mi => meetingFor companies si slot mi (mentors.getD mi ""))

/-- The full schedule in pure form: concatenation of the per-slot blocks. -/
def pureSched (mentors companies : List String) : Nat → List Slot → List Meeting
  | _, [] => []
  | si, slot :: rest =>
    slotBlock mentors companies si slot ++ pureSched mentors companies (si + 1) rest

end Rotation

namespace AvoidRepeat

/-- A BREAK entry of src/app.py create_schedule (lines 152-163 and 192-204):
`company` is the string sentinel "BREAK". -/
def breakMeeting (mentor : String) (slot : Slot) : Meeting :=
  { summary := mentor ++ " <> BREAK"
    mentor := mentor
    company := "BREAK"
    start_time := slot.start
    end_time := slot.stop }

/-- A regular meeting entry of src/app.py create_schedule (lines 208-234). -/
def mkMeeting (mentor company : String) (slot : Slot) : Meeting :=
  { summary := mentor ++ " <> " ++ company
    mentor := mentor
    company := company
    start_time := slot.start
    end_time := slot.stop }

/-- The matching loop of src/app.py create_schedule (lines 178-206):
for each available mentor in order, compute
`unmet_companies = [c for c in available_companies if c not in mentor_to_companies[mentor]]`;
if nonempty, assign its first element, remove it from the available companies
and record the pair as met; otherwise append a BREAK meeting for the mentor.
Returns (BREAK meetings in emission order, assigned (mentor, company) pairs in
emission order, updated met-pairs set).  The Python code tracks the met pairs
in `mentor_to_companies` (queried) and `daily_meetings_held` (write-only);
both are represented by the single pair list `met`. -/
def matchLoop (slot : Slot) :
    List String → List String → List (String × String) →
      List Meeting × List (String × String) × List (String × String)
  | [], _, met => ([], [], met)
  | mentor :: rest, avail, met =>
    match avail.filter (fun c => decide ((mentor, c) ∉ met)) with
    | [] =>
      let r := matchLoop slot rest avail met
      (breakMeeting mentor slot :: r.1, r.2.1, r.2.2)
    | c :: _ =>
      let r := matchLoop slot rest (avail.erase c) ((mentor, c) :: met)
      (r.1, (mentor, c) :: r.2.1, r.2.2)

/-- One slot of src/app.py create_schedule (lines 139-237): when mentors
outnumber companies, mentor number `slot_index % num_mentors` receives a BREAK
entry first and is removed (all occurrences of its name) from the mentors
available in this slot; then the matching loop runs, its BREAK entries are
appended during the loop, and the regular meetings are appended after it.
Returns the slot's meetings in schedule order plus the updated met set. -/
def processSlot (mentors : List String) (num_companies : Nat) (si : Nat)
    (slot : Slot) (met : List (String × String)) (date_companies : List String) :
    List Meeting × List (String × String) :=
  if mentors.length > num_companies then
    let skip := mentors.getD (si % mentors.length) ""
    let r := matchLoop slot (mentors.filter (fun m => decide (m ≠ skip))) date_companies met
    (breakMeeting skip slot :: (r.1 ++ r.2.1.map (fun p => mkMeeting p.1 p.2 slot)), r.2.2)
  else
    let r := matchLoop slot mentors date_companies met
    (r.1 ++ r.2.1.map (fun p => mkMeeting p.1 p.2 slot), r.2.2)

/-- src/app.py line 237: `date_companies = date_companies[1:] + [date_companies[0]]`.
Indexing `[0]` raises IndexError on an empty list. -/
def rotateCompanies : List String → Except String (List String)
  | [] => Except.error "IndexError: list index out of range"
  | c :: cs => Except.ok (cs ++ [c])

/-- The `for slot_index, slot in enumerate(time_slots)` loop of src/app.py
create_schedule: process each slot, then rotate the company list. -/
def processSlots (mentors : List String) (num_companies : Nat) :
    Nat → List Slot → List (String × String) → List String →
      Except String (List Meeting)
  | _, [], _, _ => Except.ok []
  | si, slot :: rest, met, date_companies =>
    let r := processSlot mentors num_companies si slot met date_companies
    match rotateCompanies date_companies with
    | Except.error e => Except.error e
    | Except.ok dc' =>
      match processSlots mentors num_companies (si + 1) rest r.2 dc' with
      | Except.error e => Except.error e
      | Except.ok tail => Except.ok (r.1 ++ tail)

/-- src/app.py create_schedule (lines 91-264) for one date group: the mentors
of that date, the (copied) company list, and the generated time slots.  The
per-date state starts with no met pairs and the original company order. -/
def create_schedule (mentors companies : List String) (slots : List Slot) :
    Except String (List Meeting) :=
  processSlots mentors companies.length 0 slots [] companies

end AvoidRepeat

namespace SlotGen

/-- One loop iteration state of generate_meeting_times
(src/config/configure_schedule.py lines 62-87), in absolute minutes:
append (current_time, current_time + mtg_length); advance by break_length when
breaks are enabled and more meetings remain; after meeting number
`num_meetings // 2`, additionally advance once by lunch_length when lunch is
enabled.  `fuel` counts the remaining iterations of the
`while meeting_count < num_meetings` loop and `k` is `meeting_count`. -/
def gmtAux (mtgLen : Nat) (numMeetings : Nat) (hasBreaks : Bool) (breakLen : Nat)
    (hasLunch : Bool) (lunchLen : Nat) :
    Nat → Nat → Nat → List (Nat × Nat)
  | 0, _, _ => []
  | fuel + 1, k, current =>
    let meetingEnd := current + mtgLen
    let afterBreak :=
      if hasBreaks && decide (k + 1 < numMeetings) then meetingEnd + breakLen
      else meetingEnd
    let afterLunch :=
      if hasLunch && decide (k + 1 = numMeetings / 2) then afterBreak + lunchLen
      else afterBreak
    (current, meetingEnd) ::
      gmtAux mtgLen numMeetings hasBreaks breakLen hasLunch lunchLen fuel (k + 1) afterLunch

/-- generate_meeting_times (src/config/configure_schedule.py lines 28-88).
`firstStart` is the parsed HH:MM start in minutes.  The returned times are the
`strftime("%H:%M")` renderings of the absolute times, i.e. minutes modulo one
day (1440 minutes): Python's datetime arithmetic is exact but the emitted
strings wrap around midnight. -/
def generate_meeting_times (mtgLen numMeetings : Nat) (hasBreaks : Bool)
    (breakLen : Nat) (hasLunch : Bool) (lunchLen : Nat) (firstStart : Nat) :
    List (Nat × Nat) :=
  (gmtAux mtgLen numMeetings hasBreaks breakLen hasLunch lunchLen
      numMeetings 0 firstStart).map (fun p => (p.1 % 1440, p.2 % 1440))

/-- generate_time_slots (src/app.py lines 40-81): the fixed table of eight
time ranges, in minutes of the day. -/
def generate_time_slots : List Slot :=
  [⟨570, 590⟩, ⟨595, 615⟩, ⟨620, 640⟩, ⟨655, 675⟩, ⟨680, 700⟩,
   ⟨770, 790⟩, ⟨795, 815⟩, ⟨820, 840⟩]

end SlotGen

namespace Roster

/-- Stored mentor metadata of src/app.py create_schedule (lines 112-116). -/
structure MentorDetail where
  role : String
  company : String
  bio : String
deriving DecidableEq, Repr

/-- A row of mentors.csv as built by convert_records_to_dataframe
(src/config/refresh_mentors.py lines 109-116). -/
structure MentorRow where
  name : String
  role : String
  company : String
  bio : String
  dates : String
deriving DecidableEq, Repr

/-- Python `fields.get(key, dflt)` over a record's field mapping, modelled as
an association list (first binding wins, like a dict with unique keys). -/
def lookupField (fields : List (String × String)) (key dflt : String) : String :=
  (fields.lookup key).getD dflt

/-- The mentor-detail construction of src/app.py create_schedule (lines
106-116): `fields.get('Role', 'Mentor')`, `fields.get('Company', '')`,
`fields.get('Bio', '')`. -/
def mentor_detail_of_fields (fields : List (String × String)) : MentorDetail :=
  { role := lookupField fields "Role" "Mentor"
    company := lookupField fields "Company" ""
    bio := lookupField fields "Bio" "" }

/-- The per-record grouping step of src/app.py create_schedule (lines 99-119):
a record is processed only when both 'Date' and 'Name' are present, yielding
(date, mentor name, stored detail). -/
def processRecord (fields : List (String × String)) :
    Option (String × String × MentorDetail) :=
  match fields.lookup "Date", fields.lookup "Name" with
  | some date, some name => some (date, name, mentor_detail_of_fields fields)
  | _, _ => none

/-- The per-record step of convert_records_to_dataframe
(src/config/refresh_mentors.py lines 86-118), without a date filter: skip
records without 'Name' or whose 'Status' is not "Booked - March 2025";
otherwise build the row with `fields.get(_, '')` defaults, `dates` being the
'Date' field when present. -/
def convert_record (fields : List (String × String)) : Option MentorRow :=
  match fields.lookup "Name" with
  | none => none
  | some _ =>
    if lookupField fields "Status" "" = "Booked - March 2025" then
      some
        { name := lookupField fields "Name" ""
          role := lookupField fields "Role" ""
          company := lookupField fields "Company" ""
          bio := lookupField fields "Bio" ""
          dates :=
            match fields.lookup "Date" with
            | some d => d
            | none => "" }
    else none

end Roster

theorem range_map_succ_shift {α : Type} (f : Nat → α) (n : Nat) :
    (List.range (n + 1)).map f = f 0 :: (List.range n).map (fun j => f (j + 1)) := by
  rw [List.range_succ_eq_map, List.map_cons, List.map_map]
  rfl

theorem map_getD_range (l : List String) :
    (List.range l.length).map (fun i => l.getD i "") = l := by
  induction l with
  | nil => rfl
  | cons m rest ih =>
    rw [List.length_cons, range_map_succ_shift]
    have h : ∀ x ∈ List.range rest.length,
        (fun j => (m :: rest).getD (j + 1) "") x = rest.getD x "" := by
      intro x _
      simp [List.getD_cons_succ]
    rw [List.map_congr_left h, ih]
    rfl

theorem rotation_mentorLoop_ok (companies : List String) (hc : companies ≠ [])
    (si : Nat) (slot : Slot) :
    ∀ (ms : List String) (mi : Nat),
      Rotation.mentorLoop companies si slot mi ms =
        Except.ok ((List.range ms.length).map
          (fun j => Rotation.meetingFor companies si slot (mi + j) (ms.getD j ""))) := by
  intro ms
  induction ms with
  | nil => intro mi; rfl
  | cons m rest ih =>
    intro mi
    have hlen : ¬ companies.length = 0 := by
      simpa [List.length_eq_zero] using hc
    have hstep : Rotation.mentorLoop companies si slot mi (m :: rest) =
        Except.ok (Rotation.meetingFor companies si slot mi m ::
          (List.range rest.length).map
            (fun j => Rotation.meetingFor companies si slot (mi + 1 + j) (rest.getD j ""))) := by
      simp only [Rotation.mentorLoop, if_neg hlen, ih (mi + 1)]
    rw [hstep, List.length_cons, range_map_succ_shift]
    simp only [Except.ok.injEq, List.cons.injEq]
    constructor
    · simp
    · apply List.map_congr_left
      intro j _
      have harith : mi + 1 + j = mi + (j + 1) := by omega
      simp [List.getD_cons_succ, harith]

theorem rotation_slotLoop_ok (mentors companies : List String) (hc : companies ≠ []) :
    ∀ (slots : List Slot) (si : Nat),
      Rotation.slotLoop mentors companies si slots =
        Except.ok (Rotation.pureSched mentors companies si slots) := by
  intro slots
  induction slots with
  | nil => intro si; rfl
  | cons slot rest ih =>
    intro si
    simp only [Rotation.slotLoop, rotation_mentorLoop_ok companies hc si slot mentors 0,
      ih (si + 1), Rotation.pureSched, Rotation.slotBlock]
    congr 2
    apply List.map_congr_left
    intro j _
    simp

theorem rotation_create_schedule_ok (mentors companies : List String)
    (slots : List Slot) (hc : companies ≠ []) :
    Rotation.create_schedule mentors companies slots =
      Except.ok (Rotation.pureSched mentors companies 0 slots) :=
  rotation_slotLoop_ok mentors companies hc slots 0

theorem rotation_slotBlock_length (mentors companies : List String) (si : Nat)
    (slot : Slot) :
    (Rotation.slotBlock mentors companies si slot).length = mentors.length := by
  simp [Rotation.slotBlock]

theorem rotation_pureSched_length (mentors companies : List String) :
    ∀ (slots : List Slot) (si : Nat),
      (Rotation.pureSched mentors companies si slots).length =
        slots.length * mentors.length := by
  intro slots
  induction slots with
  | nil => intro si; simp [Rotation.pureSched]
  | cons slot rest ih =>
    intro si
    simp [Rotation.pureSched, rotation_slotBlock_length, ih (si + 1), Nat.succ_mul,
      Nat.add_comm]

theorem rotation_mem_slotBlock_company (mentors companies : List String) (si : Nat)
    (slot : Slot) (hc : companies ≠ []) :
    ∀ mtg ∈ Rotation.slotBlock mentors companies si slot, mtg.company ∈ companies := by
  intro mtg hmtg
  simp only [Rotation.slotBlock, List.mem_map, List.mem_range] at hmtg
  obtain ⟨mi, _, rfl⟩ := hmtg
  have hlen : 0 < companies.length := List.length_pos.mpr hc
  have hlt : (si + mi) % companies.length < companies.length := Nat.mod_lt _ hlen
  simp only [Rotation.meetingFor, List.getD_eq_getElem _ _ hlt]
  exact List.getElem_mem hlt

theorem rotation_mem_slotBlock_times (mentors companies : List String) (si : Nat)
    (slot : Slot) :
    ∀ mtg ∈ Rotation.slotBlock mentors companies si slot,
      mtg.start_time = slot.start ∧ mtg.end_time = slot.stop := by
  intro mtg hmtg
  simp only [Rotation.slotBlock, List.mem_map, List.mem_range] at hmtg
  obtain ⟨mi, _, rfl⟩ := hmtg
  exact ⟨rfl, rfl⟩

theorem rotation_slotBlock_map_mentor (mentors companies : List String) (si : Nat)
    (slot : Slot) :
    (Rotation.slotBlock mentors companies si slot).map Meeting.mentor = mentors := by
  rw [Rotation.slotBlock, List.map_map]
  have h : ∀ x ∈ List.range mentors.length,
      (Meeting.mentor ∘ fun mi =>
          Rotation.meetingFor companies si slot mi (mentors.getD mi "")) x =
        mentors.getD x "" := fun x _ => rfl
  exact (List.map_congr_left h).trans (map_getD_range mentors)

theorem mod_small_cases (x N : Nat) (_hN : 0 < N) (h : x < 2 * N) :
    x % N = x ∧ x < N ∨ x % N = x - N ∧ N ≤ x := by
  rcases Nat.lt_or_ge x N with hx | hx
  · exact Or.inl ⟨Nat.mod_eq_of_lt hx, hx⟩
  · refine Or.inr ⟨?_, hx⟩
    rw [Nat.mod_eq_sub_mod hx]
    exact Nat.mod_eq_of_lt (by omega)

theorem mod_add_inj (N r : Nat) {mi mj : Nat} (hmi : mi < N) (hmj : mj < N)
    (h : (r + mi) % N = (r + mj) % N) : mi = mj := by
  have hN : 0 < N := Nat.lt_of_le_of_lt (Nat.zero_le _) hmi
  have hr : r % N < N := Nat.mod_lt _ hN
  have h1 : (r + mi) % N = (r % N + mi) % N := by
    rw [Nat.add_mod, Nat.mod_eq_of_lt hmi]
  have h2 : (r + mj) % N = (r % N + mj) % N := by
    rw [Nat.add_mod, Nat.mod_eq_of_lt hmj]
  rw [h1, h2] at h
  rcases mod_small_cases (r % N + mi) N hN (by omega) with ⟨ha, hb⟩ | ⟨ha, hb⟩ <;>
    rcases mod_small_cases (r % N + mj) N hN (by omega) with ⟨hc, hd⟩ | ⟨hc, hd⟩ <;>
    omega

theorem mod_add_exists (N j k : Nat) (hN : 0 < N) (hk : k < N) :
    ∃ i, i < N ∧ (i + j) % N = k := by
  have hj : j % N < N := Nat.mod_lt _ hN
  have ha : (N + k - j % N) % N < N := Nat.mod_lt _ hN
  refine ⟨(N + k - j % N) % N, ha, ?_⟩
  rw [Nat.add_mod, Nat.mod_eq_of_lt ha]
  rcases mod_small_cases (N + k - j % N) N hN (by omega) with ⟨hb, hc⟩ | ⟨hb, hc⟩
  · have hsum : (N + k - j % N) % N + j % N = N + k := by omega
    rw [hsum, Nat.add_mod_left]
    exact Nat.mod_eq_of_lt hk
  · have hsum : (N + k - j % N) % N + j % N = k := by omega
    rw [hsum]
    exact Nat.mod_eq_of_lt hk

theorem countP_range_zero (N : Nat) (p : Nat → Bool) (h : ∀ j, j < N → p j = false) :
    (List.range N).countP p = 0 := by
  apply List.countP_eq_zero.mpr
  intro a ha
  simp [h a (List.mem_range.mp ha)]

theorem countP_range_unique (N : Nat) (p : Nat → Bool) (j₀ : Nat) (hj₀ : j₀ < N)
    (h : ∀ j, j < N → (p j = true ↔ j = j₀)) :
    (List.range N).countP p = 1 := by
  induction N with
  | zero => omega
  | succ n ih =>
    rw [List.range_succ, List.countP_append]
    rcases Nat.lt_or_ge j₀ n with hlt | hge
    · have hn : ¬ p n = true := by
        intro hp
        have := (h n (Nat.lt_succ_self n)).mp hp
        omega
      rw [ih hlt (fun j hj => h j (Nat.lt_succ_of_lt hj))]
      simp [hn]
    · have hzero : (List.range n).countP p = 0 := by
        apply countP_range_zero
        intro j hj
        cases hp : p j with
        | false => rfl
        | true =>
          exfalso
          have := (h j (by omega)).mp hp
          omega
      have hn : p n = true := (h n (Nat.lt_succ_self n)).mpr (by omega)
      rw [hzero]
      simp [hn]

theorem countP_range_congr (N : Nat) (p q : Nat → Bool)
    (h : ∀ i, i < N → p i = q i) :
    (List.range N).countP p = (List.range N).countP q := by
  induction N with
  | zero => rfl
  | succ n ih =>
    rw [List.range_succ, List.countP_append, List.countP_append,
      ih (fun i hi => h i (by omega))]
    simp [List.countP_cons, h n (by omega)]

theorem countP_range_and (N : Nat) (g f : Nat → Bool) (j₀ : Nat) (hj₀ : j₀ < N)
    (hg : ∀ j, j < N → (g j = true ↔ j = j₀)) :
    (List.range N).countP (fun j => g j && f j) =
      if f j₀ = true then 1 else 0 := by
  cases hf : f j₀ with
  | false =>
    simp only [Bool.false_eq_true, if_false]
    apply countP_range_zero
    intro j hj
    cases hgj : g j with
    | false => simp [hgj]
    | true =>
      have hj0 : j = j₀ := (hg j hj).mp hgj
      subst hj0
      simp [hgj, hf]
  | true =>
    simp only [if_pos rfl]
    apply countP_range_unique N _ j₀ hj₀
    intro j hj
    constructor
    · intro hb
      rw [Bool.and_eq_true] at hb
      exact (hg j hj).mp hb.1
    · intro hj0
      subst hj0
      simp [(hg j hj).mpr rfl, hf]

theorem countP_range_mod_add (N j k : Nat) (hN : 0 < N) (hk : k < N) :
    (List.range N).countP (fun i => (i + j) % N == k) = 1 := by
  obtain ⟨i₀, hi₀, hik⟩ := mod_add_exists N j k hN hk
  apply countP_range_unique N _ i₀ hi₀
  intro i hi
  simp only [beq_iff_eq]
  constructor
  · intro h
    have heq : (j + i) % N = (j + i₀) % N := by
      rw [Nat.add_comm j i, Nat.add_comm j i₀, h, hik]
    exact mod_add_inj N j hi hi₀ heq
  · intro h
    subst h
    exact hik

theorem sum_map_ite_eq_countP (l : List Nat) (p : Nat → Bool) :
    (l.map (fun x => if p x = true then 1 else 0)).sum = l.countP p := by
  induction l with
  | nil => rfl
  | cons x xs ih =>
    cases hp : p x with
    | false => simp [List.countP_cons, hp, ih]
    | true => simp [List.countP_cons, hp, ih, Nat.add_comm]

theorem unique_getD_index (l : List String) (hl : l.Nodup) (a : String) (ha : a ∈ l) :
    ∃ j₀, j₀ < l.length ∧ l.getD j₀ "" = a ∧
      ∀ j, j < l.length → (l.getD j "" = a ↔ j = j₀) := by
  obtain ⟨n, hn, rfl⟩ := List.mem_iff_getElem.mp ha
  refine ⟨n, hn, by rw [List.getD_eq_getElem _ _ hn], ?_⟩
  intro j hj
  rw [List.getD_eq_getElem _ _ hj]
  constructor
  · intro h
    exact (List.Nodup.getElem_inj_iff hl).mp h
  · intro h
    subst h
    rfl

theorem rotation_slotBlock_countP (mentors companies : List String) (si : Nat)
    (slot : Slot) (a b : String) (j₀ : Nat) (hj₀ : j₀ < mentors.length)
    (hju : ∀ j, j < mentors.length → (mentors.getD j "" = a ↔ j = j₀)) :
    (Rotation.slotBlock mentors companies si slot).countP
        (fun mtg => mtg.mentor == a && mtg.company == b) =
      if (companies.getD ((si + j₀) % companies.length) "" == b) = true then 1
      else 0 := by
  rw [Rotation.slotBlock, List.countP_map]
  have hcomp : ((fun mtg => mtg.mentor == a && mtg.company == b) ∘
      (fun mi => Rotation.meetingFor companies si slot mi (mentors.getD mi ""))) =
      fun mi => (mentors.getD mi "" == a) &&
        (companies.getD ((si + mi) % companies.length) "" == b) := rfl
  rw [hcomp]
  exact countP_range_and mentors.length
    (fun mi => mentors.getD mi "" == a)
    (fun mi => companies.getD ((si + mi) % companies.length) "" == b)
    j₀ hj₀ (fun j hj => by simpa [beq_iff_eq] using hju j hj)

theorem rotation_pureSched_countP_ite (mentors companies : List String)
    (f : Meeting → Bool) (q : Nat → Bool)
    (hblock : ∀ si slot, (Rotation.slotBlock mentors companies si slot).countP f =
      if q si = true then 1 else 0) :
    ∀ (slots : List Slot) (si : Nat),
      (Rotation.pureSched mentors companies si slots).countP f =
        (List.range slots.length).countP (fun t => q (si + t)) := by
  intro slots
  induction slots with
  | nil => intro si; rfl
  | cons slot rest ih =>
    intro si
    rw [Rotation.pureSched, List.countP_append, hblock si slot, ih (si + 1),
      List.length_cons, List.range_succ_eq_map, List.countP_cons, List.countP_map]
    have hcomp : ((fun t => q (si + t)) ∘ Nat.succ) = fun t => q (si + 1 + t) := by
      funext t
      exact congrArg q (by omega)
    rw [hcomp]
    simp only [show ((fun t => q (si + t)) 0 = q si) from rfl]
    omega

/-- Claim C1: for every mentor list of size N, company list of size N, and
slot list of size N (names are unique keys, per the data model), the rotation
scheduler create_schedule in src/src/app.py, which assigns company index
(slot_index + mentor_index) mod num_companies, produces exactly N*N meetings
in which every (mentor, company) pair occurs exactly once. -/
theorem c1_latin_square_coverage (N : Nat) (mentors companies : List String)
    (slots : List Slot) (hmnd : mentors.Nodup) (hcnd : companies.Nodup)
    (hm : mentors.length = N) (hc : companies.length = N) (hs : slots.length = N) :
    ∃ sched, Rotation.create_schedule mentors companies slots = Except.ok sched ∧
      sched.length = N * N ∧
      ∀ a ∈ mentors, ∀ b ∈ companies,
        sched.countP (fun mtg => mtg.mentor == a && mtg.company == b) = 1 := by
  rcases Nat.eq_zero_or_pos N with hN0 | hNpos
  · subst hN0
    have hsnil : slots = [] := List.length_eq_zero.mp hs
    have hmnil : mentors = [] := List.length_eq_zero.mp hm
    subst hsnil
    subst hmnil
    refine ⟨[], rfl, rfl, ?_⟩
    intro a ha
    simp at ha
  · have hcne : companies ≠ [] := by
      intro hnil
      rw [hnil] at hc
      simp at hc
      omega
    refine ⟨Rotation.pureSched mentors companies 0 slots,
      rotation_create_schedule_ok mentors companies slots hcne, ?_, ?_⟩
    · rw [rotation_pureSched_length, hs, hm]
    · intro a ha b hb
      obtain ⟨j₀, hj₀, hj₀v, hju⟩ := unique_getD_index mentors hmnd a ha
      obtain ⟨k₀, hk₀, hk₀v, hku⟩ := unique_getD_index companies hcnd b hb
      have hblock : ∀ si slot,
          (Rotation.slotBlock mentors companies si slot).countP
            (fun mtg => mtg.mentor == a && mtg.company == b) =
          if (companies.getD ((si + j₀) % companies.length) "" == b) = true then 1
          else 0 :=
        fun si slot => rotation_slotBlock_countP mentors companies si slot a b j₀ hj₀ hju
      rw [rotation_pureSched_countP_ite mentors companies _
        (fun x => companies.getD ((x + j₀) % companies.length) "" == b) hblock slots 0,
        hs]
      have hcongr : (List.range N).countP
          (fun t => companies.getD ((0 + t + j₀) % companies.length) "" == b) =
          (List.range N).countP (fun t => (t + j₀) % N == k₀) := by
        apply countP_range_congr
        intro t ht
        show (companies.getD ((0 + t + j₀) % companies.length) "" == b) =
          ((t + j₀) % N == k₀)
        have h0 : 0 + t + j₀ = t + j₀ := by omega
        rw [h0, hc]
        have hlt : (t + j₀) % N < N := Nat.mod_lt _ hNpos
        have hiff := hku ((t + j₀) % N) (by omega)
        refine Bool.eq_iff_iff.mpr ?_
        simp only [beq_iff_eq]
        exact hiff
      rw [hcongr]
      exact countP_range_mod_add N j₀ k₀ hNpos (by omega)

/-- Witness for c1_latin_square_coverage at the spec's example: 3 mentors,
3 companies, 3 slots give 9 meetings with every pair met exactly once. -/
theorem c1_latin_square_coverage_witness :
    (["a", "b", "c"] : List String).Nodup ∧ (["x", "y", "z"] : List String).Nodup ∧
    (∃ sched, Rotation.create_schedule ["a", "b", "c"] ["x", "y", "z"]
        [⟨0, 1⟩, ⟨2, 3⟩, ⟨4, 5⟩] = Except.ok sched ∧
      sched.length = 3 * 3 ∧
      ∀ a ∈ (["a", "b", "c"] : List String), ∀ b ∈ (["x", "y", "z"] : List String),
        sched.countP (fun mtg => mtg.mentor == a && mtg.company == b) = 1) :=
  ⟨by decide, by decide,
    c1_latin_square_coverage 3 ["a", "b", "c"] ["x", "y", "z"]
      [⟨0, 1⟩, ⟨2, 3⟩, ⟨4, 5⟩] (by decide) (by decide) rfl rfl rfl⟩

theorem matchLoop_spec (slot : Slot) :
    ∀ (ms avail : List String) (met : List (String × String)),
      (∀ mtg ∈ (AvoidRepeat.matchLoop slot ms avail met).1,
        mtg.company = "BREAK" ∧ mtg.start_time = slot.start ∧
        mtg.end_time = slot.stop ∧ mtg.mentor ∈ ms) ∧
      (∀ p ∈ (AvoidRepeat.matchLoop slot ms avail met).2.1,
        p.1 ∈ ms ∧ p.2 ∈ avail ∧ p ∉ met ∧
          p ∈ (AvoidRepeat.matchLoop slot ms avail met).2.2) ∧
      (∀ q ∈ met, q ∈ (AvoidRepeat.matchLoop slot ms avail met).2.2) ∧
      (AvoidRepeat.matchLoop slot ms avail met).2.1.Nodup ∧
      (avail.Nodup →
        ((AvoidRepeat.matchLoop slot ms avail met).2.1.map Prod.snd).Nodup) ∧
      ((AvoidRepeat.matchLoop slot ms avail met).1.map Meeting.mentor ++
        (AvoidRepeat.matchLoop slot ms avail met).2.1.map Prod.fst).Perm ms := by
  intro ms
  induction ms with
  | nil =>
    intro avail met
    simp [AvoidRepeat.matchLoop]
  | cons mentor rest ih =>
    intro avail met
    rcases hf : avail.filter (fun c => decide ((mentor, c) ∉ met)) with _ | ⟨c, cs⟩
    · simp only [AvoidRepeat.matchLoop, hf]
      obtain ⟨ihA, ihB, ihC, ihD, ihE, ihF⟩ := ih avail met
      refine ⟨?_, ?_, ihC, ihD, ihE, ?_⟩
      · intro mtg hmtg
        rcases List.mem_cons.mp hmtg with rfl | hmem
        · exact ⟨rfl, rfl, rfl, List.mem_cons_self _ _⟩
        · obtain ⟨h1, h2, h3, h4⟩ := ihA mtg hmem
          exact ⟨h1, h2, h3, List.mem_cons_of_mem _ h4⟩
      · intro p hp
        obtain ⟨h1, h2, h3, h4⟩ := ihB p hp
        exact ⟨List.mem_cons_of_mem _ h1, h2, h3, h4⟩
      · simp only [List.map_cons, List.cons_append]
        exact List.Perm.cons _ ihF
    · have hcmem : c ∈ avail.filter (fun x => decide ((mentor, x) ∉ met)) := by
        rw [hf]
        exact List.mem_cons_self _ _
      have hcavail : c ∈ avail := (List.mem_filter.mp hcmem).1
      have hcmet : (mentor, c) ∉ met := by
        have := (List.mem_filter.mp hcmem).2
        simpa using this
      simp only [AvoidRepeat.matchLoop, hf]
      obtain ⟨ihA, ihB, ihC, ihD, ihE, ihF⟩ := ih (avail.erase c) ((mentor, c) :: met)
      refine ⟨?_, ?_, ?_, ?_, ?_, ?_⟩
      · intro mtg hmtg
        obtain ⟨h1, h2, h3, h4⟩ := ihA mtg hmtg
        exact ⟨h1, h2, h3, List.mem_cons_of_mem _ h4⟩
      · intro p hp
        rcases List.mem_cons.mp hp with rfl | hmem
        · exact ⟨List.mem_cons_self _ _, hcavail, hcmet,
            ihC (mentor, c) (List.mem_cons_self _ _)⟩
        · obtain ⟨h1, h2, h3, h4⟩ := ihB p hmem
          exact ⟨List.mem_cons_of_mem _ h1, List.erase_subset _ _ h2,
            fun hpm => h3 (List.mem_cons_of_mem _ hpm), h4⟩
      · intro q hq
        exact ihC q (List.mem_cons_of_mem _ hq)
      · refine List.Nodup.cons ?_ ihD
        intro hmem
        exact (ihB (mentor, c) hmem).2.2.1 (List.mem_cons_self _ _)
      · intro hnd
        simp only [List.map_cons]
        refine List.Nodup.cons ?_ (ihE (hnd.erase c))
        intro hmem
        obtain ⟨p, hp, hpc⟩ := List.mem_map.mp hmem
        have : p.2 ∈ avail.erase c := (ihB p hp).2.1
        rw [hpc] at this
        exact absurd ((List.Nodup.mem_erase_iff hnd).mp this).1 (by simp)
      · simp only [List.map_cons]
        exact List.Perm.trans List.perm_middle (List.Perm.cons _ ihF)

theorem nonBreakPairs_cons (x : Meeting) (l : List Meeting) :
    nonBreakPairs (x :: l) =
      if x.company ≠ "BREAK" then (x.mentor, x.company) :: nonBreakPairs l
      else nonBreakPairs l := by
  by_cases hx : x.company = "BREAK" <;> simp [nonBreakPairs, List.filter_cons, hx]

theorem nonBreakPairs_append (l₁ l₂ : List Meeting) :
    nonBreakPairs (l₁ ++ l₂) = nonBreakPairs l₁ ++ nonBreakPairs l₂ := by
  simp [nonBreakPairs, List.filter_append]

theorem nonBreakPairs_of_breaks (l : List Meeting)
    (h : ∀ mtg ∈ l, mtg.company = "BREAK") : nonBreakPairs l = [] := by
  induction l with
  | nil => rfl
  | cons x xs ih =>
    rw [nonBreakPairs_cons, if_neg (by simpa using h x (List.mem_cons_self _ _)),
      ih (fun mtg hm => h mtg (List.mem_cons_of_mem _ hm))]

theorem nonBreakPairs_map_mk (slot : Slot) (ts : List (String × String)) :
    nonBreakPairs (ts.map (fun p => AvoidRepeat.mkMeeting p.1 p.2 slot)) =
      ts.filter (fun p => decide (p.2 ≠ "BREAK")) := by
  induction ts with
  | nil => rfl
  | cons p ps ih =>
    rw [List.map_cons, nonBreakPairs_cons, List.filter_cons]
    by_cases hp : p.2 = "BREAK"
    · rw [if_neg (by simpa [AvoidRepeat.mkMeeting] using hp), ih]
      simp [hp]
    · rw [if_pos (by simpa [AvoidRepeat.mkMeeting] using hp), ih]
      simp [hp, AvoidRepeat.mkMeeting]

theorem processSlot_pairs_spec (mentors : List String) (nc si : Nat) (slot : Slot)
    (met : List (String × String)) (dc : List String) :
    (nonBreakPairs (AvoidRepeat.processSlot mentors nc si slot met dc).1).Nodup ∧
    (∀ p ∈ nonBreakPairs (AvoidRepeat.processSlot mentors nc si slot met dc).1,
      p ∉ met ∧ p ∈ (AvoidRepeat.processSlot mentors nc si slot met dc).2) ∧
    (∀ q ∈ met, q ∈ (AvoidRepeat.processSlot mentors nc si slot met dc).2) := by
  by_cases hgt : mentors.length > nc
  · obtain ⟨ihA, ihB, ihC, ihD, _, _⟩ := matchLoop_spec slot
      (mentors.filter (fun m => decide (m ≠ mentors.getD (si % mentors.length) "")))
      dc met
    simp only [AvoidRepeat.processSlot, if_pos hgt]
    rw [nonBreakPairs_cons, if_neg (by simp [AvoidRepeat.breakMeeting]),
      nonBreakPairs_append, nonBreakPairs_of_breaks _ (fun mtg hm => (ihA mtg hm).1),
      List.nil_append, nonBreakPairs_map_mk]
    refine ⟨List.Nodup.filter _ ihD, ?_, ihC⟩
    intro p hp
    have hpts := List.mem_filter.mp hp
    exact ⟨(ihB p hpts.1).2.2.1, (ihB p hpts.1).2.2.2⟩
  · obtain ⟨ihA, ihB, ihC, ihD, _, _⟩ := matchLoop_spec slot mentors dc met
    simp only [AvoidRepeat.processSlot, if_neg hgt]
    rw [nonBreakPairs_append, nonBreakPairs_of_breaks _ (fun mtg hm => (ihA mtg hm).1),
      List.nil_append, nonBreakPairs_map_mk]
    refine ⟨List.Nodup.filter _ ihD, ?_, ihC⟩
    intro p hp
    have hpts := List.mem_filter.mp hp
    exact ⟨(ihB p hpts.1).2.2.1, (ihB p hpts.1).2.2.2⟩

theorem processSlots_pairs_nodup (mentors : List String) (nc : Nat) :
    ∀ (slots : List Slot) (si : Nat) (met : List (String × String))
      (dc : List String) (sched : List Meeting),
      AvoidRepeat.processSlots mentors nc si slots met dc = Except.ok sched →
      (nonBreakPairs sched).Nodup ∧ ∀ p ∈ nonBreakPairs sched, p ∉ met := by
  intro slots
  induction slots with
  | nil =>
    intro si met dc sched hok
    simp only [AvoidRepeat.processSlots, Except.ok.injEq] at hok
    subst hok
    exact ⟨List.nodup_nil, by intro p hp; simp [nonBreakPairs] at hp⟩
  | cons slot rest ih =>
    intro si met dc sched hok
    simp only [AvoidRepeat.processSlots] at hok
    rcases hrot : AvoidRepeat.rotateCompanies dc with e | dc'
    · simp [hrot] at hok
    · simp only [hrot] at hok
      rcases htail : AvoidRepeat.processSlots mentors nc (si + 1) rest
          (AvoidRepeat.processSlot mentors nc si slot met dc).2 dc' with e | tail
      · simp [htail] at hok
      · simp only [htail] at hok
        simp only [Except.ok.injEq] at hok
        subst hok
        obtain ⟨hbn, hbmem, hmet⟩ := processSlot_pairs_spec mentors nc si slot met dc
        obtain ⟨htn, htmem⟩ := ih (si + 1)
          (AvoidRepeat.processSlot mentors nc si slot met dc).2 dc' tail htail
        rw [nonBreakPairs_append]
        constructor
        · rw [List.nodup_append]
          refine ⟨hbn, htn, ?_⟩
          intro p hpb hpt
          exact htmem p hpt ((hbmem p hpb).2)
        · intro p hp
          rcases List.mem_append.mp hp with hpb | hpt
          · exact (hbmem p hpb).1
          · intro hpm
            exact htmem p hpt (hmet p hpm)

/-- Claim C2: the duplicate-avoidance scheduler (create_schedule in src/app.py)
never emits two non-BREAK meetings with the same (mentor, company) pair on the
same date: for every mentor list, company list, and slot list, the non-BREAK
(mentor, company) pairs of a successfully produced day schedule contain no
duplicate.  (When the computation raises, no schedule is emitted and the list
of pairs is empty.)  The accompanying assignment rule of the claim, that a
mentor receives the first company in current company-list order that is unmet
and unassigned in the slot, or BREAK if none exists, is the definition of
`AvoidRepeat.matchLoop`. -/
theorem c2_no_repeats_avoid_repeat (mentors companies : List String)
    (slots : List Slot) :
    (nonBreakPairs
      ((AvoidRepeat.create_schedule mentors companies slots).toOption.getD [])).Nodup := by
  rcases hrun : AvoidRepeat.create_schedule mentors companies slots with e | sched
  · simp [Except.toOption, nonBreakPairs]
  · have := (processSlots_pairs_nodup mentors companies.length slots 0 [] companies
      sched hrun).1
    simpa [Except.toOption] using this

theorem map_mk_mentor (slot : Slot) (ts : List (String × String)) :
    (ts.map (fun p => AvoidRepeat.mkMeeting p.1 p.2 slot)).map Meeting.mentor =
      ts.map Prod.fst := by
  rw [List.map_map]
  rfl

theorem matchLoop_block_mentors_perm (slot : Slot) (ms avail : List String)
    (met : List (String × String)) :
    (((AvoidRepeat.matchLoop slot ms avail met).1 ++
      (AvoidRepeat.matchLoop slot ms avail met).2.1.map
        (fun p => AvoidRepeat.mkMeeting p.1 p.2 slot)).map Meeting.mentor).Perm ms := by
  obtain ⟨_, _, _, _, _, ihF⟩ := matchLoop_spec slot ms avail met
  rw [List.map_append, map_mk_mentor]
  exact ihF

theorem processSlot_mentor_nodup (mentors : List String) (nc si : Nat) (slot : Slot)
    (met : List (String × String)) (dc : List String) (hm : mentors.Nodup) :
    ((AvoidRepeat.processSlot mentors nc si slot met dc).1.map Meeting.mentor).Nodup := by
  by_cases hgt : mentors.length > nc
  · simp only [AvoidRepeat.processSlot, if_pos hgt, List.map_cons]
    have hperm := matchLoop_block_mentors_perm slot
      (mentors.filter (fun m => decide (m ≠ mentors.getD (si % mentors.length) "")))
      dc met
    refine List.Nodup.cons ?_ ((List.Perm.nodup_iff hperm).mpr (hm.filter _))
    intro hmem
    have h2 := (hperm.mem_iff).mp hmem
    have h3 := (List.mem_filter.mp h2).2
    simp [AvoidRepeat.breakMeeting] at h3
  · simp only [AvoidRepeat.processSlot, if_neg hgt]
    exact (List.Perm.nodup_iff (matchLoop_block_mentors_perm slot mentors dc met)).mpr hm

theorem matchLoop_block_times (slot : Slot) (ms avail : List String)
    (met : List (String × String)) :
    ∀ mtg ∈ (AvoidRepeat.matchLoop slot ms avail met).1 ++
      (AvoidRepeat.matchLoop slot ms avail met).2.1.map
        (fun p => AvoidRepeat.mkMeeting p.1 p.2 slot),
      mtg.start_time = slot.start ∧ mtg.end_time = slot.stop := by
  obtain ⟨ihA, _, _, _, _, _⟩ := matchLoop_spec slot ms avail met
  intro mtg hmtg
  rcases List.mem_append.mp hmtg with hb | hts
  · exact ⟨(ihA mtg hb).2.1, (ihA mtg hb).2.2.1⟩
  · obtain ⟨p, _, rfl⟩ := List.mem_map.mp hts
    exact ⟨rfl, rfl⟩

theorem processSlot_times (mentors : List String) (nc si : Nat) (slot : Slot)
    (met : List (String × String)) (dc : List String) :
    ∀ mtg ∈ (AvoidRepeat.processSlot mentors nc si slot met dc).1,
      mtg.start_time = slot.start ∧ mtg.end_time = slot.stop := by
  intro mtg hmtg
  by_cases hgt : mentors.length > nc
  · simp only [AvoidRepeat.processSlot, if_pos hgt] at hmtg
    rcases List.mem_cons.mp hmtg with rfl | hmem
    · exact ⟨rfl, rfl⟩
    · exact matchLoop_block_times slot _ dc met mtg hmem
  · simp only [AvoidRepeat.processSlot, if_neg hgt] at hmtg
    exact matchLoop_block_times slot mentors dc met mtg hmtg

theorem matchLoop_block_pairwiseB (slot : Slot) (ms avail : List String)
    (met : List (String × String)) (hav : avail.Nodup) :
    ((AvoidRepeat.matchLoop slot ms avail met).1 ++
      (AvoidRepeat.matchLoop slot ms avail met).2.1.map
        (fun p => AvoidRepeat.mkMeeting p.1 p.2 slot)).Pairwise
      (fun x y => x.company ≠ "BREAK" → y.company ≠ "BREAK" →
        x.company ≠ y.company) := by
  obtain ⟨ihA, _, _, _, ihE, _⟩ := matchLoop_spec slot ms avail met
  rw [List.pairwise_append]
  refine ⟨?_, ?_, ?_⟩
  · apply List.pairwise_of_forall_mem_list
    intro x hx y _ h1 _
    exact absurd (ihA x hx).1 h1
  · apply List.pairwise_map.mpr
    apply List.Pairwise.imp ?_ (List.pairwise_map.mp (ihE hav))
    intro p q hpq
    intro _ _
    exact hpq
  · intro x hx y _ h1 _
    exact absurd (ihA x hx).1 h1

theorem processSlot_pairwiseB (mentors : List String) (nc si : Nat) (slot : Slot)
    (met : List (String × String)) (dc : List String) (hdc : dc.Nodup) :
    (AvoidRepeat.processSlot mentors nc si slot met dc).1.Pairwise
      (fun x y => x.company ≠ "BREAK" → y.company ≠ "BREAK" →
        x.company ≠ y.company) := by
  by_cases hgt : mentors.length > nc
  · simp only [AvoidRepeat.processSlot, if_pos hgt]
    refine List.Pairwise.cons ?_ (matchLoop_block_pairwiseB slot _ dc met hdc)
    intro y _ h1 _
    exact absurd rfl h1
  · simp only [AvoidRepeat.processSlot, if_neg hgt]
    exact matchLoop_block_pairwiseB slot mentors dc met hdc

theorem processSlot_exclusive (mentors : List String) (nc si : Nat) (slot : Slot)
    (met : List (String × String)) (dc : List String) (hm : mentors.Nodup)
    (hdc : dc.Nodup) :
    slotExclusive (AvoidRepeat.processSlot mentors nc si slot met dc).1 := by
  have hmen : (AvoidRepeat.processSlot mentors nc si slot met dc).1.Pairwise
      (fun x y => x.mentor ≠ y.mentor) :=
    List.pairwise_map.mp (processSlot_mentor_nodup mentors nc si slot met dc hm)
  have hcomp := processSlot_pairwiseB mentors nc si slot met dc hdc
  exact List.Pairwise.imp (fun hab => fun _ => ⟨hab.1, hab.2⟩) (hmen.and hcomp)

theorem rotateCompanies_spec (dc dc' : List String)
    (h : AvoidRepeat.rotateCompanies dc = Except.ok dc') :
    dc'.length = dc.length ∧ (dc.Nodup → dc'.Nodup) := by
  cases dc with
  | nil => simp [AvoidRepeat.rotateCompanies] at h
  | cons c cs =>
    simp only [AvoidRepeat.rotateCompanies, Except.ok.injEq] at h
    subst h
    constructor
    · simp
    · intro hnd
      exact (List.Perm.nodup_iff (List.perm_append_singleton c cs)).mpr hnd

theorem avoid_processSlots_exclusive (mentors : List String) (nc : Nat)
    (hm : mentors.Nodup) :
    ∀ (slots : List Slot) (si : Nat) (met : List (String × String))
      (dc : List String) (sched : List Meeting), dc.Nodup →
      (slots.map Slot.start).Nodup →
      AvoidRepeat.processSlots mentors nc si slots met dc = Except.ok sched →
      slotExclusive sched ∧ ∀ mtg ∈ sched, mtg.start_time ∈ slots.map Slot.start := by
  intro slots
  induction slots with
  | nil =>
    intro si met dc sched _ _ hok
    simp only [AvoidRepeat.processSlots, Except.ok.injEq] at hok
    subst hok
    exact ⟨List.Pairwise.nil, by intro mtg hm2; simp at hm2⟩
  | cons slot rest ih =>
    intro si met dc sched hdc hss hok
    simp only [AvoidRepeat.processSlots] at hok
    rcases hrot : AvoidRepeat.rotateCompanies dc with e | dc'
    · simp [hrot] at hok
    · simp only [hrot] at hok
      rcases htail : AvoidRepeat.processSlots mentors nc (si + 1) rest
          (AvoidRepeat.processSlot mentors nc si slot met dc).2 dc' with e | tail
      · simp [htail] at hok
      · simp only [htail, Except.ok.injEq] at hok
        subst hok
        have hdc' : dc'.Nodup := (rotateCompanies_spec dc dc' hrot).2 hdc
        have hss' : (rest.map Slot.start).Nodup := (List.nodup_cons.mp hss).2
        have hstart : slot.start ∉ rest.map Slot.start := (List.nodup_cons.mp hss).1
        obtain ⟨htexcl, htmem⟩ := ih (si + 1)
          (AvoidRepeat.processSlot mentors nc si slot met dc).2 dc' tail hdc' hss' htail
        constructor
        · rw [slotExclusive, List.pairwise_append]
          refine ⟨processSlot_exclusive mentors nc si slot met dc hm hdc, htexcl, ?_⟩
          intro x hx y hy heqt
          exfalso
          have hxs := (processSlot_times mentors nc si slot met dc x hx).1
          have hys := htmem y hy
          rw [heqt] at hxs
          rw [hxs] at hys
          exact hstart hys
        · intro mtg hmtg
          rcases List.mem_append.mp hmtg with hb | ht
          · rw [List.map_cons, (processSlot_times mentors nc si slot met dc mtg hb).1]
            exact List.mem_cons_self _ _
          · rw [List.map_cons]
            exact List.mem_cons_of_mem _ (htmem mtg ht)

theorem rotation_slotBlock_company_nodup (mentors companies : List String)
    (si : Nat) (slot : Slot) (hmc : mentors.length ≤ companies.length)
    (hcnd : companies.Nodup) :
    ((Rotation.slotBlock mentors companies si slot).map Meeting.company).Nodup := by
  rw [Rotation.slotBlock, List.map_map]
  have hfn : (Meeting.company ∘ fun mi =>
      Rotation.meetingFor companies si slot mi (mentors.getD mi "")) =
      fun mi => companies.getD ((si + mi) % companies.length) "" := rfl
  rw [hfn]
  apply List.pairwise_map.mpr
  apply List.Pairwise.imp_of_mem ?_ (List.pairwise_lt_range mentors.length)
  intro mi mj hmi hmj hlt heq
  have hmj' : mj < companies.length :=
    Nat.lt_of_lt_of_le (List.mem_range.mp hmj) hmc
  have hmi' : mi < companies.length :=
    Nat.lt_of_lt_of_le (List.mem_range.mp hmi) hmc
  have hclen : 0 < companies.length := by omega
  have hi : (si + mi) % companies.length < companies.length := Nat.mod_lt _ hclen
  have hj : (si + mj) % companies.length < companies.length := Nat.mod_lt _ hclen
  rw [List.getD_eq_getElem _ _ hi, List.getD_eq_getElem _ _ hj] at heq
  have hmod : (si + mi) % companies.length = (si + mj) % companies.length :=
    (List.Nodup.getElem_inj_iff hcnd).mp heq
  have : mi = mj := mod_add_inj companies.length si hmi' hmj' hmod
  omega

theorem rotation_slotBlock_exclusive (mentors companies : List String) (si : Nat)
    (slot : Slot) (hm : mentors.Nodup) (hcnd : companies.Nodup)
    (hmc : mentors.length ≤ companies.length) :
    slotExclusive (Rotation.slotBlock mentors companies si slot) := by
  have h1 : ((Rotation.slotBlock mentors companies si slot).map Meeting.mentor).Nodup := by
    rw [rotation_slotBlock_map_mentor]
    exact hm
  have hmen := List.pairwise_map.mp h1
  have hcomp :=
    List.pairwise_map.mp (rotation_slotBlock_company_nodup mentors companies si slot hmc hcnd)
  exact List.Pairwise.imp (fun hab => fun _ => ⟨hab.1, fun _ _ => hab.2⟩)
    (hmen.and hcomp)

theorem rotation_pureSched_exclusive (mentors companies : List String)
    (hm : mentors.Nodup) (hcnd : companies.Nodup)
    (hmc : mentors.length ≤ companies.length) :
    ∀ (slots : List Slot) (si : Nat), (slots.map Slot.start).Nodup →
      slotExclusive (Rotation.pureSched mentors companies si slots) ∧
      ∀ mtg ∈ Rotation.pureSched mentors companies si slots,
        mtg.start_time ∈ slots.map Slot.start := by
  intro slots
  induction slots with
  | nil =>
    intro si _
    exact ⟨List.Pairwise.nil, by intro mtg hm2; simp [Rotation.pureSched] at hm2⟩
  | cons slot rest ih =>
    intro si hss
    have hss' : (rest.map Slot.start).Nodup := (List.nodup_cons.mp hss).2
    have hstart : slot.start ∉ rest.map Slot.start := (List.nodup_cons.mp hss).1
    obtain ⟨htexcl, htmem⟩ := ih (si + 1) hss'
    constructor
    · rw [Rotation.pureSched, slotExclusive, List.pairwise_append]
      refine ⟨rotation_slotBlock_exclusive mentors companies si slot hm hcnd hmc,
        htexcl, ?_⟩
      intro x hx y hy heqt
      exfalso
      have hxs := (rotation_mem_slotBlock_times mentors companies si slot x hx).1
      have hys := htmem y hy
      rw [heqt] at hxs
      rw [hxs] at hys
      exact hstart hys
    · intro mtg hmtg
      rw [Rotation.pureSched] at hmtg
      rcases List.mem_append.mp hmtg with hb | ht
      · rw [List.map_cons, (rotation_mem_slotBlock_times mentors companies si slot mtg hb).1]
        exact List.mem_cons_self _ _
      · rw [List.map_cons]
        exact List.mem_cons_of_mem _ (htmem mtg ht)

theorem rotation_slotLoop_nil_mentors (companies : List String) :
    ∀ (slots : List Slot) (si : Nat),
      Rotation.slotLoop [] companies si slots =
        Except.ok (Rotation.pureSched [] companies si slots) := by
  intro slots
  induction slots with
  | nil => intro si; rfl
  | cons slot rest ih =>
    intro si
    simp only [Rotation.slotLoop, Rotation.mentorLoop, ih (si + 1)]
    rfl

theorem rotation_pureSched_nil_mentors (companies : List String) :
    ∀ (slots : List Slot) (si : Nat),
      Rotation.pureSched [] companies si slots = [] := by
  intro slots
  induction slots with
  | nil => intro si; rfl
  | cons slot rest ih =>
    intro si
    simp [Rotation.pureSched, Rotation.slotBlock, ih (si + 1)]

theorem rotation_create_cases (mentors companies : List String) (slots : List Slot)
    (sched : List Meeting)
    (hok : Rotation.create_schedule mentors companies slots = Except.ok sched) :
    sched = Rotation.pureSched mentors companies 0 slots := by
  by_cases hcne : companies = []
  · subst hcne
    cases mentors with
    | nil =>
      rw [Rotation.create_schedule, rotation_slotLoop_nil_mentors] at hok
      simp only [Except.ok.injEq] at hok
      exact hok.symm
    | cons m ms =>
      cases slots with
      | nil =>
        simp only [Rotation.create_schedule, Rotation.slotLoop, Except.ok.injEq] at hok
        rw [← hok]
        rfl
      | cons slot rest =>
        have herr : Rotation.create_schedule (m :: ms) [] (slot :: rest) =
            Except.error "ZeroDivisionError: integer division or modulo by zero" := rfl
        rw [herr] at hok
        simp at hok
  · rw [rotation_create_schedule_ok mentors companies slots hcne] at hok
    simp only [Except.ok.injEq] at hok
    exact hok.symm

theorem rotation_pureSched_mem_start (mentors companies : List String) :
    ∀ (slots : List Slot) (si : Nat),
      ∀ mtg ∈ Rotation.pureSched mentors companies si slots,
        mtg.start_time ∈ slots.map Slot.start := by
  intro slots
  induction slots with
  | nil => intro si mtg hm2; simp [Rotation.pureSched] at hm2
  | cons slot rest ih =>
    intro si mtg hmtg
    rw [Rotation.pureSched] at hmtg
    rcases List.mem_append.mp hmtg with hb | ht
    · rw [List.map_cons, (rotation_mem_slotBlock_times mentors companies si slot mtg hb).1]
      exact List.mem_cons_self _ _
    · rw [List.map_cons]
      exact List.mem_cons_of_mem _ (ih (si + 1) mtg ht)

theorem rotation_slotBlock_mentor_pairwise (mentors companies : List String)
    (si : Nat) (slot : Slot) (hm : mentors.Nodup) :
    (Rotation.slotBlock mentors companies si slot).Pairwise
      (fun x y => x.mentor ≠ y.mentor) := by
  have h1 : ((Rotation.slotBlock mentors companies si slot).map Meeting.mentor).Nodup := by
    rw [rotation_slotBlock_map_mentor]
    exact hm
  exact List.pairwise_map.mp h1

theorem rotation_pureSched_mentor_exclusive (mentors companies : List String)
    (hm : mentors.Nodup) :
    ∀ (slots : List Slot) (si : Nat), (slots.map Slot.start).Nodup →
      List.Pairwise
        (fun x y => x.start_time = y.start_time → x.mentor ≠ y.mentor)
        (Rotation.pureSched mentors companies si slots) := by
  intro slots
  induction slots with
  | nil => intro si _; exact List.Pairwise.nil
  | cons slot rest ih =>
    intro si hss
    have hss2 : (rest.map Slot.start).Nodup := (List.nodup_cons.mp hss).2
    have hstart : slot.start ∉ rest.map Slot.start := (List.nodup_cons.mp hss).1
    rw [Rotation.pureSched, List.pairwise_append]
    refine ⟨List.Pairwise.imp (fun h => fun _ => h)
      (rotation_slotBlock_mentor_pairwise mentors companies si slot hm),
      ih (si + 1) hss2, ?_⟩
    intro x hx y hy heqt
    exfalso
    have hxs := (rotation_mem_slotBlock_times mentors companies si slot x hx).1
    have hys := rotation_pureSched_mem_start mentors companies rest (si + 1) y hy
    rw [heqt] at hxs
    rw [hxs] at hys
    exact hstart hys

/-- Counterexample to claim C3 as stated: with 3 mentors, 2 companies and one
slot, the rotation scheduler (src/src/app.py) pairs company "x" with both
mentor "a" and mentor "c" in the same slot, so a company can appear in two
non-BREAK meetings of one slot when mentors outnumber companies. -/
theorem c3_per_slot_exclusivity_cex :
    Rotation.create_schedule ["a", "b", "c"] ["x", "y"] [⟨0, 1⟩] =
      Except.ok [⟨"a <> x", "a", "x", 0, 1⟩, ⟨"b <> y", "b", "y", 0, 1⟩,
        ⟨"c <> x", "c", "x", 0, 1⟩] ∧
    ¬ slotExclusive [⟨"a <> x", "a", "x", 0, 1⟩, ⟨"b <> y", "b", "y", 0, 1⟩,
        ⟨"c <> x", "c", "x", 0, 1⟩] := by
  constructor
  · rfl
  · decide

/-- Claim C3 (amended): with distinct mentor names, distinct company names and
distinct slot start times, each mentor appears in at most one meeting per time
slot in both scheduler variants, and each company appears in at most one
non-BREAK meeting per slot in the duplicate-avoidance variant
(src/app.py create_schedule) unconditionally, and in the rotation variant
(src/src/app.py create_schedule) whenever the mentors do not outnumber the
companies; when mentors outnumber companies the rotation variant reuses a
company within a slot.  The first conjunct is the rotation variant's
mentor-side exclusivity with no restriction on the roster sizes; the second
adds company-side exclusivity under mentors.length <= companies.length; the
third is full per-slot exclusivity for the duplicate-avoidance variant. -/
theorem c3_per_slot_exclusivity_amended (mentors companies : List String)
    (slots : List Slot) (hm : mentors.Nodup) (hcnd : companies.Nodup)
    (hss : (slots.map Slot.start).Nodup) :
    (∀ sched, Rotation.create_schedule mentors companies slots = Except.ok sched →
      List.Pairwise
        (fun x y => x.start_time = y.start_time → x.mentor ≠ y.mentor) sched) ∧
    (mentors.length ≤ companies.length →
      ∀ sched, Rotation.create_schedule mentors companies slots = Except.ok sched →
        slotExclusive sched) ∧
    (∀ sched, AvoidRepeat.create_schedule mentors companies slots = Except.ok sched →
      slotExclusive sched) := by
  refine ⟨?_, ?_, ?_⟩
  · intro sched hok
    have hsched := rotation_create_cases mentors companies slots sched hok
    subst hsched
    exact rotation_pureSched_mentor_exclusive mentors companies hm slots 0 hss
  · intro hmc sched hok
    have hsched := rotation_create_cases mentors companies slots sched hok
    subst hsched
    exact (rotation_pureSched_exclusive mentors companies hm hcnd hmc slots 0 hss).1
  · intro sched hok
    exact (avoid_processSlots_exclusive mentors companies.length hm slots 0 []
      companies sched hcnd hss hok).1

/-- Witness for c3_per_slot_exclusivity_amended.  The first part exercises
the unconditional rotation mentor-exclusivity conjunct precisely in the
mentors-outnumber-companies regime (3 mentors, 2 companies: one slot's
mentors are still pairwise distinct even though company "x" repeats); the
other parts exercise both variants at 2 mentors, 2 companies, 2 slots. -/
theorem c3_per_slot_exclusivity_witness :
    ((["a", "b", "c"] : List String).Nodup ∧ (["x", "y"] : List String).Nodup ∧
      (([⟨0, 1⟩] : List Slot).map Slot.start).Nodup ∧
      (["a", "b"] : List String).Nodup ∧
      (([⟨0, 1⟩, ⟨2, 3⟩] : List Slot).map Slot.start).Nodup ∧
      (["a", "b"] : List String).length ≤ (["x", "y"] : List String).length) ∧
    List.Pairwise (fun x y => x.start_time = y.start_time → x.mentor ≠ y.mentor)
      ([⟨"a <> x", "a", "x", 0, 1⟩, ⟨"b <> y", "b", "y", 0, 1⟩,
        ⟨"c <> x", "c", "x", 0, 1⟩] : List Meeting) ∧
    slotExclusive [⟨"a <> x", "a", "x", 0, 1⟩, ⟨"b <> y", "b", "y", 0, 1⟩,
      ⟨"a <> y", "a", "y", 2, 3⟩, ⟨"b <> x", "b", "x", 2, 3⟩] ∧
    slotExclusive [⟨"a <> x", "a", "x", 0, 1⟩, ⟨"b <> y", "b", "y", 0, 1⟩,
      ⟨"a <> y", "a", "y", 2, 3⟩, ⟨"b <> x", "b", "x", 2, 3⟩] :=
  ⟨⟨by decide, by decide, by decide, by decide, by decide, by decide⟩,
    (c3_per_slot_exclusivity_amended ["a", "b", "c"] ["x", "y"] [⟨0, 1⟩]
      (by decide) (by decide) (by decide)).1 _ rfl,
    (c3_per_slot_exclusivity_amended ["a", "b"] ["x", "y"] [⟨0, 1⟩, ⟨2, 3⟩]
      (by decide) (by decide) (by decide)).2.1 (by decide) _ rfl,
    (c3_per_slot_exclusivity_amended ["a", "b"] ["x", "y"] [⟨0, 1⟩, ⟨2, 3⟩]
      (by decide) (by decide) (by decide)).2.2 _ rfl⟩

theorem all_same_start_pairwise_le (l : List Meeting) (v : Nat)
    (h : ∀ mtg ∈ l, mtg.start_time = v) :
    l.Pairwise (fun x y => x.start_time ≤ y.start_time) := by
  apply List.pairwise_of_forall_mem_list
  intro x hx y hy
  rw [h x hx, h y hy]

theorem avoid_processSlots_sorted (mentors : List String) (nc : Nat) :
    ∀ (slots : List Slot) (si : Nat) (met : List (String × String))
      (dc : List String) (sched : List Meeting),
      slots.Pairwise (fun s t => s.start ≤ t.start) →
      AvoidRepeat.processSlots mentors nc si slots met dc = Except.ok sched →
      sortedByStart sched ∧ ∀ mtg ∈ sched, mtg.start_time ∈ slots.map Slot.start := by
  intro slots
  induction slots with
  | nil =>
    intro si met dc sched _ hok
    simp only [AvoidRepeat.processSlots, Except.ok.injEq] at hok
    subst hok
    exact ⟨List.Pairwise.nil, by intro mtg hm2; simp at hm2⟩
  | cons slot rest ih =>
    intro si met dc sched hsorted hok
    simp only [AvoidRepeat.processSlots] at hok
    rcases hrot : AvoidRepeat.rotateCompanies dc with e | dc'
    · simp [hrot] at hok
    · simp only [hrot] at hok
      rcases htail : AvoidRepeat.processSlots mentors nc (si + 1) rest
          (AvoidRepeat.processSlot mentors nc si slot met dc).2 dc' with e | tail
      · simp [htail] at hok
      · simp only [htail, Except.ok.injEq] at hok
        subst hok
        have hrest := (List.pairwise_cons.mp hsorted).2
        have hhead := (List.pairwise_cons.mp hsorted).1
        obtain ⟨htsort, htmem⟩ := ih (si + 1)
          (AvoidRepeat.processSlot mentors nc si slot met dc).2 dc' tail hrest htail
        constructor
        · rw [sortedByStart, List.pairwise_append]
          refine ⟨all_same_start_pairwise_le _ slot.start
            (fun mtg hmtg => (processSlot_times mentors nc si slot met dc mtg hmtg).1),
            htsort, ?_⟩
          intro x hx y hy
          rw [(processSlot_times mentors nc si slot met dc x hx).1]
          obtain ⟨s, hs, hseq⟩ := List.mem_map.mp (htmem y hy)
          rw [← hseq]
          exact hhead s hs
        · intro mtg hmtg
          rcases List.mem_append.mp hmtg with hb | ht
          · rw [List.map_cons, (processSlot_times mentors nc si slot met dc mtg hb).1]
            exact List.mem_cons_self _ _
          · rw [List.map_cons]
            exact List.mem_cons_of_mem _ (htmem mtg ht)

theorem rotation_pureSched_sorted (mentors companies : List String) :
    ∀ (slots : List Slot) (si : Nat),
      slots.Pairwise (fun s t => s.start ≤ t.start) →
      sortedByStart (Rotation.pureSched mentors companies si slots) ∧
      ∀ mtg ∈ Rotation.pureSched mentors companies si slots,
        mtg.start_time ∈ slots.map Slot.start := by
  intro slots
  induction slots with
  | nil =>
    intro si _
    exact ⟨List.Pairwise.nil, by intro mtg hm2; simp [Rotation.pureSched] at hm2⟩
  | cons slot rest ih =>
    intro si hsorted
    have hrest := (List.pairwise_cons.mp hsorted).2
    have hhead := (List.pairwise_cons.mp hsorted).1
    obtain ⟨htsort, htmem⟩ := ih (si + 1) hrest
    constructor
    · rw [Rotation.pureSched, sortedByStart, List.pairwise_append]
      refine ⟨all_same_start_pairwise_le _ slot.start
        (fun mtg hmtg => (rotation_mem_slotBlock_times mentors companies si slot mtg hmtg).1),
        htsort, ?_⟩
      intro x hx y hy
      rw [(rotation_mem_slotBlock_times mentors companies si slot x hx).1]
      obtain ⟨s, hs, hseq⟩ := List.mem_map.mp (htmem y hy)
      rw [← hseq]
      exact hhead s hs
    · intro mtg hmtg
      rw [Rotation.pureSched] at hmtg
      rcases List.mem_append.mp hmtg with hb | ht
      · rw [List.map_cons, (rotation_mem_slotBlock_times mentors companies si slot mtg hb).1]
        exact List.mem_cons_self _ _
      · rw [List.map_cons]
        exact List.mem_cons_of_mem _ (htmem mtg ht)

theorem rotation_slotBlock_roster (mentors companies : List String) (si : Nat)
    (slot : Slot) (hm : mentors.Nodup) :
    (Rotation.slotBlock mentors companies si slot).Pairwise
      (fun x y => mentors.indexOf x.mentor ≤ mentors.indexOf y.mentor) := by
  rw [Rotation.slotBlock]
  apply List.pairwise_map.mpr
  apply List.Pairwise.imp_of_mem ?_ (List.pairwise_lt_range mentors.length)
  intro mi mj hmi hmj hlt
  have hmi' : mi < mentors.length := List.mem_range.mp hmi
  have hmj' : mj < mentors.length := List.mem_range.mp hmj
  show mentors.indexOf (mentors.getD mi "") ≤ mentors.indexOf (mentors.getD mj "")
  rw [List.getD_eq_getElem _ _ hmi', List.getD_eq_getElem _ _ hmj',
    List.indexOf_getElem hm mi hmi', List.indexOf_getElem hm mj hmj']
  omega

theorem rotation_pureSched_roster (mentors companies : List String)
    (hm : mentors.Nodup) :
    ∀ (slots : List Slot) (si : Nat), (slots.map Slot.start).Nodup →
      rosterOrdered mentors (Rotation.pureSched mentors companies si slots) := by
  intro slots
  induction slots with
  | nil => intro si _; exact List.Pairwise.nil
  | cons slot rest ih =>
    intro si hss
    have hss' : (rest.map Slot.start).Nodup := (List.nodup_cons.mp hss).2
    have hstart : slot.start ∉ rest.map Slot.start := (List.nodup_cons.mp hss).1
    rw [Rotation.pureSched, rosterOrdered, List.pairwise_append]
    refine ⟨List.Pairwise.imp (fun h => fun _ => h)
      (rotation_slotBlock_roster mentors companies si slot hm), ih (si + 1) hss', ?_⟩
    intro x hx y hy heqt
    exfalso
    have hxs := (rotation_mem_slotBlock_times mentors companies si slot x hx).1
    have hys := rotation_pureSched_mem_start mentors companies rest (si + 1) y hy
    rw [heqt] at hxs
    rw [hxs] at hys
    exact hstart hys

/-- Counterexample to claim C7 as stated: with mentors ["a", "b"], one company
and two (start-ordered) slots, the duplicate-avoidance scheduler emits, in the
second slot, the BREAK entry of mentor "b" (roster position 1) before the
meeting of mentor "a" (roster position 0), so within-slot roster ordering
fails for this variant. -/
theorem c7_ordering_cex :
    ([⟨0, 1⟩, ⟨2, 3⟩] : List Slot).Pairwise (fun s t => s.start < t.start) ∧
    AvoidRepeat.create_schedule ["a", "b"] ["x"] [⟨0, 1⟩, ⟨2, 3⟩] =
      Except.ok [⟨"a <> BREAK", "a", "BREAK", 0, 1⟩, ⟨"b <> x", "b", "x", 0, 1⟩,
        ⟨"b <> BREAK", "b", "BREAK", 2, 3⟩, ⟨"a <> x", "a", "x", 2, 3⟩] ∧
    ¬ rosterOrdered ["a", "b"]
        [⟨"a <> BREAK", "a", "BREAK", 0, 1⟩, ⟨"b <> x", "b", "x", 0, 1⟩,
         ⟨"b <> BREAK", "b", "BREAK", 2, 3⟩, ⟨"a <> x", "a", "x", 2, 3⟩] := by
  refine ⟨by decide, ?_, by decide⟩
  rfl

/-- Claim C7 (amended): for slot lists strictly ordered by start time, the
produced meeting sequence (BREAK entries included) is non-decreasing by slot
start time in both scheduler variants; within one slot, the rotation variant
(src/src/app.py) emits meetings exactly in roster order (a slot's mentor
column equals the mentor roster), while the duplicate-avoidance variant
(src/app.py) does not respect roster order within a slot, because a slot's
BREAK entries precede its regular meetings. -/
theorem c7_ordering_amended (mentors companies : List String) (slots : List Slot)
    (hslots : slots.Pairwise (fun s t => s.start < t.start)) :
    (∀ sched, Rotation.create_schedule mentors companies slots = Except.ok sched →
      sortedByStart sched ∧ (mentors.Nodup → rosterOrdered mentors sched)) ∧
    (∀ si slot,
      (Rotation.slotBlock mentors companies si slot).map Meeting.mentor = mentors) ∧
    (∀ sched, AvoidRepeat.create_schedule mentors companies slots = Except.ok sched →
      sortedByStart sched) := by
  have hle : slots.Pairwise (fun s t => s.start ≤ t.start) :=
    List.Pairwise.imp (fun h => Nat.le_of_lt h) hslots
  have hss : (slots.map Slot.start).Nodup :=
    List.pairwise_map.mpr (List.Pairwise.imp (fun h => Nat.ne_of_lt h) hslots)
  refine ⟨?_, ?_, ?_⟩
  · intro sched hok
    have hsched := rotation_create_cases mentors companies slots sched hok
    subst hsched
    exact ⟨(rotation_pureSched_sorted mentors companies slots 0 hle).1,
      fun hm => rotation_pureSched_roster mentors companies hm slots 0 hss⟩
  · intro si slot
    exact rotation_slotBlock_map_mentor mentors companies si slot
  · intro sched hok
    exact (avoid_processSlots_sorted mentors companies.length slots 0 [] companies
      sched hle hok).1

/-- Witness for c7_ordering_amended: 2 mentors, 2 companies, 2 slots. -/
theorem c7_ordering_witness :
    ([⟨0, 1⟩, ⟨2, 3⟩] : List Slot).Pairwise (fun s t => s.start < t.start) ∧
    (sortedByStart [⟨"a <> x", "a", "x", 0, 1⟩, ⟨"b <> y", "b", "y", 0, 1⟩,
        ⟨"a <> y", "a", "y", 2, 3⟩, ⟨"b <> x", "b", "x", 2, 3⟩] ∧
      rosterOrdered ["a", "b"] [⟨"a <> x", "a", "x", 0, 1⟩, ⟨"b <> y", "b", "y", 0, 1⟩,
        ⟨"a <> y", "a", "y", 2, 3⟩, ⟨"b <> x", "b", "x", 2, 3⟩]) ∧
    sortedByStart [⟨"a <> x", "a", "x", 0, 1⟩, ⟨"b <> y", "b", "y", 0, 1⟩,
      ⟨"a <> y", "a", "y", 2, 3⟩, ⟨"b <> x", "b", "x", 2, 3⟩] := by
  have h := c7_ordering_amended ["a", "b"] ["x", "y"] [⟨0, 1⟩, ⟨2, 3⟩] (by decide)
  have h1 := h.1 _ rfl
  exact ⟨by decide, ⟨h1.1, h1.2 (by decide)⟩, h.2.2 _ rfl⟩

theorem avoid_processSlots_ok (mentors : List String) (nc : Nat) :
    ∀ (slots : List Slot) (si : Nat) (met : List (String × String))
      (dc : List String), dc ≠ [] →
      ∃ sched, AvoidRepeat.processSlots mentors nc si slots met dc = Except.ok sched := by
  intro slots
  induction slots with
  | nil => intro si met dc _; exact ⟨[], rfl⟩
  | cons slot rest ih =>
    intro si met dc hdc
    cases dc with
    | nil => exact absurd rfl hdc
    | cons c cs =>
      obtain ⟨tail, htail⟩ := ih (si + 1)
        (AvoidRepeat.processSlot mentors nc si slot met (c :: cs)).2 (cs ++ [c])
        (by simp)
      exact ⟨(AvoidRepeat.processSlot mentors nc si slot met (c :: cs)).1 ++ tail,
        by simp only [AvoidRepeat.processSlots, AvoidRepeat.rotateCompanies, htail]⟩

/-- Counterexample to claim C6 as stated: with the empty company list, one
mentor and one slot, both scheduler variants raise (the rotation variant with
a ZeroDivisionError at `% num_companies`, the duplicate-avoidance variant with
an IndexError at `date_companies[0]` in the end-of-slot rotation), so a
roster-size mismatch with zero companies is a failure, not mere padding. -/
theorem c6_never_raises_cex :
    Rotation.create_schedule ["a"] [] [⟨0, 1⟩] =
      Except.error "ZeroDivisionError: integer division or modulo by zero" ∧
    AvoidRepeat.create_schedule ["a"] [] [⟨0, 1⟩] =
      Except.error "IndexError: list index out of range" :=
  ⟨rfl, rfl⟩

/-- Claim C6 (amended): for every NON-EMPTY company list, every mentor list
and every slot list, both pairing computations complete without raising an
exception; with an empty company list and at least one slot the computation
raises (see the counterexample), so "never raises on count mismatch" holds
only for mismatches between two non-trivial rosters. -/
theorem c6_never_raises_amended (mentors companies : List String)
    (slots : List Slot) (hc : companies ≠ []) :
    (∃ sched, Rotation.create_schedule mentors companies slots = Except.ok sched) ∧
    (∃ sched, AvoidRepeat.create_schedule mentors companies slots = Except.ok sched) :=
  ⟨⟨Rotation.pureSched mentors companies 0 slots,
      rotation_create_schedule_ok mentors companies slots hc⟩,
    avoid_processSlots_ok mentors companies.length slots 0 [] companies hc⟩

/-- Witness for c6_never_raises_amended at a concrete input. -/
theorem c6_never_raises_witness :
    ((["x"] : List String) ≠ []) ∧
    ((∃ sched, Rotation.create_schedule ["a"] ["x"] [⟨0, 1⟩] = Except.ok sched) ∧
      (∃ sched, AvoidRepeat.create_schedule ["a"] ["x"] [⟨0, 1⟩] = Except.ok sched)) :=
  ⟨by decide, c6_never_raises_amended ["a"] ["x"] [⟨0, 1⟩] (by decide)⟩

theorem add_mod_left_mod (i mi N : Nat) : (i % N + mi) % N = (i + mi) % N := by
  rw [Nat.add_mod, Nat.mod_mod_of_dvd i (dvd_refl N), ← Nat.add_mod]

/-- Claim C5: for mentor and company lists balanced to size N = max(m, c)
(so the company list has length N, which also covers m < c = N) and a slot
list longer than N, the rotation scheduler's (mentor, company) pairings of
slot i equal those of slot (i mod N), whatever the two slots' time windows
are; e.g. with N = 7 and 8 slots, slot 7's pairings equal slot 0's. -/
theorem c5_wraparound_repetition (N : Nat) (mentors companies : List String)
    (slots : List Slot) (i : Nat) (slot slot' : Slot)
    (_hN : N = max mentors.length companies.length)
    (hc : companies.length = N)
    (_hs : N < slots.length) (_hi : i < slots.length) :
    (Rotation.slotBlock mentors companies i slot).map (fun m => (m.mentor, m.company)) =
      (Rotation.slotBlock mentors companies (i % N) slot').map
        (fun m => (m.mentor, m.company)) := by
  rw [Rotation.slotBlock, Rotation.slotBlock, List.map_map, List.map_map]
  apply List.map_congr_left
  intro mi _
  show (mentors.getD mi "", companies.getD ((i + mi) % companies.length) "") =
    (mentors.getD mi "", companies.getD ((i % N + mi) % companies.length) "")
  rw [hc, add_mod_left_mod]

/-- Witness for c5_wraparound_repetition: N = 2, 3 slots, slot 2 repeats
slot 0. -/
theorem c5_wraparound_repetition_witness :
    ((2 : Nat) = max (["a", "b"] : List String).length (["x", "y"] : List String).length ∧
      (["x", "y"] : List String).length = 2 ∧
      2 < ([⟨0, 1⟩, ⟨2, 3⟩, ⟨4, 5⟩] : List Slot).length ∧
      2 < ([⟨0, 1⟩, ⟨2, 3⟩, ⟨4, 5⟩] : List Slot).length) ∧
    (Rotation.slotBlock ["a", "b"] ["x", "y"] 2 ⟨4, 5⟩).map
        (fun m => (m.mentor, m.company)) =
      (Rotation.slotBlock ["a", "b"] ["x", "y"] (2 % 2) ⟨0, 1⟩).map
        (fun m => (m.mentor, m.company)) :=
  ⟨⟨by decide, by decide, by decide, by decide⟩,
    c5_wraparound_repetition 2 ["a", "b"] ["x", "y"] [⟨0, 1⟩, ⟨2, 3⟩, ⟨4, 5⟩] 2
      ⟨4, 5⟩ ⟨0, 1⟩ (by decide) (by decide) (by decide) (by decide)⟩

theorem rotation_pureSched_mem_company (mentors companies : List String)
    (hc : companies ≠ []) :
    ∀ (slots : List Slot) (si : Nat),
      ∀ mtg ∈ Rotation.pureSched mentors companies si slots,
        mtg.company ∈ companies := by
  intro slots
  induction slots with
  | nil => intro si mtg hm2; simp [Rotation.pureSched] at hm2
  | cons slot rest ih =>
    intro si mtg hmtg
    rw [Rotation.pureSched] at hmtg
    rcases List.mem_append.mp hmtg with hb | ht
    · exact rotation_mem_slotBlock_company mentors companies si slot hc mtg hb
    · exact ih (si + 1) mtg ht

/-- Counterexample to claim C10 as stated: when the company list itself
contains the string "BREAK", the rotation scheduler emits a meeting whose
company field equals "BREAK". -/
theorem c10_no_breaks_rotation_cex :
    Rotation.create_schedule ["a"] ["BREAK"] [⟨0, 1⟩] =
      Except.ok [⟨"a <> BREAK", "a", "BREAK", 0, 1⟩] ∧
    (⟨"a <> BREAK", "a", "BREAK", 0, 1⟩ : Meeting).company = "BREAK" :=
  ⟨rfl, rfl⟩

/-- Claim C10 (amended): for every non-empty company list, mentor list and
slot list, the rotation scheduler in src/src/app.py returns exactly
len(slots) * len(mentors) meeting records, each of whose companies is an
element of the company list; the scheduler never introduces a BREAK record of
its own, so no meeting has company "BREAK" unless the input company list
itself contains "BREAK". -/
theorem c10_no_breaks_rotation_amended (mentors companies : List String)
    (slots : List Slot) (hc : companies ≠ []) :
    ∃ sched, Rotation.create_schedule mentors companies slots = Except.ok sched ∧
      sched.length = slots.length * mentors.length ∧
      (∀ mtg ∈ sched, mtg.company ∈ companies) ∧
      ("BREAK" ∉ companies → ∀ mtg ∈ sched, mtg.company ≠ "BREAK") := by
  refine ⟨Rotation.pureSched mentors companies 0 slots,
    rotation_create_schedule_ok mentors companies slots hc,
    rotation_pureSched_length mentors companies slots 0,
    rotation_pureSched_mem_company mentors companies hc slots 0, ?_⟩
  intro hnb mtg hmtg heq
  apply hnb
  rw [← heq]
  exact rotation_pureSched_mem_company mentors companies hc slots 0 mtg hmtg

/-- Witness for c10_no_breaks_rotation_amended at a concrete input. -/
theorem c10_no_breaks_rotation_witness :
    ((["x", "y"] : List String) ≠ []) ∧
    (∃ sched, Rotation.create_schedule ["a"] ["x", "y"] [⟨0, 1⟩] = Except.ok sched ∧
      sched.length = 1 * 1 ∧
      (∀ mtg ∈ sched, mtg.company ∈ (["x", "y"] : List String)) ∧
      ("BREAK" ∉ (["x", "y"] : List String) → ∀ mtg ∈ sched, mtg.company ≠ "BREAK")) :=
  ⟨by decide, c10_no_breaks_rotation_amended ["a"] ["x", "y"] [⟨0, 1⟩] (by decide)⟩

/-- Counterexample to claim C4 as stated: with 2 mentors and 1 company the
claim predicts exactly m - c = 1 mentor-side BREAK entry per slot, but the
rotation scheduler pairs both mentors with the same company and emits no
BREAK entry at all: no BREAK padding ever happens. -/
theorem c4_balanced_padding_cex :
    Rotation.create_schedule ["a", "b"] ["x"] [⟨0, 1⟩] =
      Except.ok [⟨"a <> x", "a", "x", 0, 1⟩, ⟨"b <> x", "b", "x", 0, 1⟩] ∧
    ([⟨"a <> x", "a", "x", 0, 1⟩, ⟨"b <> x", "b", "x", 0, 1⟩] : List Meeting).countP
        (fun m => m.company == "BREAK") ≠
      (["a", "b"] : List String).length - (["x"] : List String).length :=
  ⟨rfl, by decide⟩

/-- Claim C4 (amended): neither scheduler pads the rosters with BREAK
sentinels to N = max(m, c).  In the rotation variant every slot pairs every
mentor with a company from the list (dropping nobody and emitting no BREAK
entries, even when m > c); when m <= c with distinct company names, a slot's
m assigned companies are distinct, so exactly c - m companies (e.g. 2 of 7
for 5 mentors and 7 companies) get no meeting in that slot.  The
duplicate-avoidance variant instead starts a slot with one skip-BREAK entry
whenever mentors outnumber companies; further BREAK entries arise only from
exhausted mentors, so a slot's BREAK count need not equal m - c. -/
theorem c4_balanced_padding_amended (mentors companies : List String) (si : Nat)
    (slot : Slot) (hc : companies ≠ []) :
    (Rotation.slotBlock mentors companies si slot).length = mentors.length ∧
    (∀ mtg ∈ Rotation.slotBlock mentors companies si slot, mtg.company ∈ companies) ∧
    (mentors.length ≤ companies.length → companies.Nodup →
      (companies.filter (fun c =>
          decide (c ∉ (Rotation.slotBlock mentors companies si slot).map
            Meeting.company))).length = companies.length - mentors.length) ∧
    (∀ (nc : Nat) (met : List (String × String)) (dc : List String),
      mentors.length > nc →
      (AvoidRepeat.processSlot mentors nc si slot met dc).1.head? =
        some (AvoidRepeat.breakMeeting (mentors.getD (si % mentors.length) "") slot)) := by
  refine ⟨rotation_slotBlock_length mentors companies si slot,
    rotation_mem_slotBlock_company mentors companies si slot hc, ?_, ?_⟩
  · intro hmc hcd
    have hlenbc : ((Rotation.slotBlock mentors companies si slot).map
        Meeting.company).length = mentors.length := by
      rw [List.length_map, rotation_slotBlock_length]
    have hbcd := rotation_slotBlock_company_nodup mentors companies si slot hmc hcd
    have hsub : ∀ x ∈ (Rotation.slotBlock mentors companies si slot).map Meeting.company,
        x ∈ companies := by
      intro x hx
      obtain ⟨mtg, hmtg, rfl⟩ := List.mem_map.mp hx
      exact rotation_mem_slotBlock_company mentors companies si slot hc mtg hmtg
    have hsp1 : List.Subperm
        ((Rotation.slotBlock mentors companies si slot).map Meeting.company)
        (companies.filter (fun c =>
          decide (c ∈ (Rotation.slotBlock mentors companies si slot).map
            Meeting.company))) := by
      apply List.Nodup.subperm hbcd
      intro x hx
      exact List.mem_filter.mpr ⟨hsub x hx, by simpa using hx⟩
    have hsp2 : List.Subperm
        (companies.filter (fun c =>
          decide (c ∈ (Rotation.slotBlock mentors companies si slot).map Meeting.company)))
        ((Rotation.slotBlock mentors companies si slot).map Meeting.company) := by
      apply List.Nodup.subperm (hcd.filter _)
      intro x hx
      have := (List.mem_filter.mp hx).2
      simpa using this
    have hperm := List.Subperm.antisymm hsp2 hsp1
    have hlen1 : (companies.filter (fun c =>
        decide (c ∈ (Rotation.slotBlock mentors companies si slot).map
          Meeting.company))).length = mentors.length := by
      rw [hperm.length_eq, hlenbc]
    have hsplit := (List.filter_append_perm (fun c =>
        decide (c ∈ (Rotation.slotBlock mentors companies si slot).map Meeting.company))
      companies).length_eq
    rw [List.length_append] at hsplit
    have hnegeq : companies.filter (fun x =>
        !(decide (x ∈ (Rotation.slotBlock mentors companies si slot).map
          Meeting.company))) =
        companies.filter (fun c =>
          decide (c ∉ (Rotation.slotBlock mentors companies si slot).map
            Meeting.company)) := by
      apply List.filter_congr
      intro x _
      rw [decide_not]
    rw [hnegeq] at hsplit
    omega
  · intro nc met dc hgt
    simp only [AvoidRepeat.processSlot, if_pos hgt, List.head?_cons]

/-- Witness for c4_balanced_padding_amended at the spec's 5-mentor, 7-company
example, plus the skip-BREAK head of the duplicate-avoidance variant. -/
theorem c4_balanced_padding_witness :
    ((["c1", "c2", "c3", "c4", "c5", "c6", "c7"] : List String) ≠ [] ∧
      (["m1", "m2", "m3", "m4", "m5"] : List String).length ≤
        (["c1", "c2", "c3", "c4", "c5", "c6", "c7"] : List String).length ∧
      (["c1", "c2", "c3", "c4", "c5", "c6", "c7"] : List String).Nodup ∧
      (["m1", "m2", "m3", "m4", "m5"] : List String).length > 1) ∧
    (Rotation.slotBlock ["m1", "m2", "m3", "m4", "m5"]
      ["c1", "c2", "c3", "c4", "c5", "c6", "c7"] 0 ⟨0, 1⟩).length = 5 ∧
    ((["c1", "c2", "c3", "c4", "c5", "c6", "c7"] : List String).filter (fun c =>
        decide (c ∉ (Rotation.slotBlock ["m1", "m2", "m3", "m4", "m5"]
          ["c1", "c2", "c3", "c4", "c5", "c6", "c7"] 0 ⟨0, 1⟩).map
            Meeting.company))).length = 2 ∧
    (AvoidRepeat.processSlot ["m1", "m2", "m3", "m4", "m5"] 1 0 ⟨0, 1⟩ []
        ["c1"]).1.head? = some (AvoidRepeat.breakMeeting "m1" ⟨0, 1⟩) := by
  have h := c4_balanced_padding_amended ["m1", "m2", "m3", "m4", "m5"]
    ["c1", "c2", "c3", "c4", "c5", "c6", "c7"] 0 ⟨0, 1⟩ (by decide)
  exact ⟨⟨by decide, by decide, by decide, by decide⟩, h.1,
    h.2.2.1 (by decide) (by decide), h.2.2.2 1 [] ["c1"] (by decide)⟩

theorem gmtAux_spec (mtgLen numMeetings : Nat) (hb : Bool) (bl : Nat)
    (hl : Bool) (ll : Nat) :
    ∀ (fuel k current : Nat),
      (∀ p ∈ SlotGen.gmtAux mtgLen numMeetings hb bl hl ll fuel k current,
        p.2 = p.1 + mtgLen ∧ current ≤ p.1) ∧
      (SlotGen.gmtAux mtgLen numMeetings hb bl hl ll fuel k current).Pairwise
        (fun p q => p.2 ≤ q.1) ∧
      (SlotGen.gmtAux mtgLen numMeetings hb bl hl ll fuel k current).Pairwise
        (fun p q => p.1 + mtgLen ≤ q.1) := by
  intro fuel
  induction fuel with
  | zero =>
    intro k current
    refine ⟨?_, List.Pairwise.nil, List.Pairwise.nil⟩
    intro p hp
    simp [SlotGen.gmtAux] at hp
  | succ n ih =>
    intro k current
    simp only [SlotGen.gmtAux]
    have hle : current + mtgLen ≤
        (if hb && decide (k + 1 < numMeetings) then current + mtgLen + bl
         else current + mtgLen) := by
      split <;> omega
    have hle2 : (if hb && decide (k + 1 < numMeetings) then current + mtgLen + bl
        else current + mtgLen) ≤
        (if hl && decide (k + 1 = numMeetings / 2) then
          (if hb && decide (k + 1 < numMeetings) then current + mtgLen + bl
           else current + mtgLen) + ll
         else
          (if hb && decide (k + 1 < numMeetings) then current + mtgLen + bl
           else current + mtgLen)) := by
      split <;> split <;> omega
    obtain ⟨ihmem, ihchain, ihchain2⟩ := ih (k + 1)
      (if hl && decide (k + 1 = numMeetings / 2) then
        (if hb && decide (k + 1 < numMeetings) then current + mtgLen + bl
         else current + mtgLen) + ll
       else
        (if hb && decide (k + 1 < numMeetings) then current + mtgLen + bl
         else current + mtgLen))
    refine ⟨?_, ?_, ?_⟩
    · intro p hp
      rcases List.mem_cons.mp hp with rfl | hmem
      · exact ⟨rfl, Nat.le_refl _⟩
      · obtain ⟨h1, h2⟩ := ihmem p hmem
        exact ⟨h1, by omega⟩
    · refine List.Pairwise.cons ?_ ihchain
      intro q hq
      have h2 := (ihmem q hq).2
      show current + mtgLen ≤ q.1
      omega
    · refine List.Pairwise.cons ?_ ihchain2
      intro q hq
      have h2 := (ihmem q hq).2
      show current + mtgLen ≤ q.1
      omega

/-- Counterexample to claim C8 as stated: the "valid" parameters
meeting_length = 1440, meeting_count = 2, no breaks, no lunch, start 09:30
make the rendered HH:MM times wrap around midnight, so the two returned slots
are both ("09:30", "09:30"): the starts are not strictly ordered and a slot's
rendered duration is 0 minutes, not meeting_length. -/
theorem c8_slot_generation_cex :
    SlotGen.generate_meeting_times 1440 2 false 0 false 0 570 =
      [(570, 570), (570, 570)] ∧
    ¬ List.Pairwise (fun p q : Nat × Nat => p.1 < q.1) [(570, 570), (570, 570)] ∧
    ((570, 570) : Nat × Nat).2 ≠ ((570, 570) : Nat × Nat).1 + 1440 :=
  ⟨rfl, by decide, by decide⟩

/-- Claim C8 (amended): for positive meeting_length, meeting_count >= 1 and
nonnegative break and lunch lengths, PROVIDED the generated absolute times all
stay below 24:00 (no midnight wraparound, so the rendered HH:MM strings are
faithful), the parametric generator generate_meeting_times returns slots that
each last exactly meeting_length minutes, are strictly ordered by start time,
and are pairwise non-overlapping (every slot's end is at or before every later
slot's start); the fixed table generate_time_slots is likewise strictly
ordered by start and non-overlapping. -/
theorem c8_slot_generation_amended (mtgLen numMeetings : Nat) (hb : Bool)
    (bl : Nat) (hl : Bool) (ll : Nat) (firstStart : Nat) (hpos : 0 < mtgLen)
    (hfit : ∀ p ∈ SlotGen.gmtAux mtgLen numMeetings hb bl hl ll
      numMeetings 0 firstStart, p.2 < 1440) :
    (∀ p ∈ SlotGen.generate_meeting_times mtgLen numMeetings hb bl hl ll firstStart,
      p.2 = p.1 + mtgLen) ∧
    (SlotGen.generate_meeting_times mtgLen numMeetings hb bl hl ll
      firstStart).Pairwise (fun p q => p.1 < q.1) ∧
    (SlotGen.generate_meeting_times mtgLen numMeetings hb bl hl ll
      firstStart).Pairwise (fun p q => p.2 ≤ q.1) ∧
    SlotGen.generate_time_slots.Pairwise (fun s t => s.start < t.start) ∧
    SlotGen.generate_time_slots.Pairwise (fun s t => s.stop ≤ t.start) := by
  obtain ⟨hmem, hchain, hchain2⟩ :=
    gmtAux_spec mtgLen numMeetings hb bl hl ll numMeetings 0 firstStart
  have hid : SlotGen.generate_meeting_times mtgLen numMeetings hb bl hl ll firstStart =
      SlotGen.gmtAux mtgLen numMeetings hb bl hl ll numMeetings 0 firstStart := by
    rw [SlotGen.generate_meeting_times]
    have hcong : ∀ p ∈ SlotGen.gmtAux mtgLen numMeetings hb bl hl ll
        numMeetings 0 firstStart, (fun q : Nat × Nat => (q.1 % 1440, q.2 % 1440)) p = id p := by
      intro p hp
      have h2 : p.2 < 1440 := hfit p hp
      have h1 : p.1 < 1440 := by
        have := (hmem p hp).1
        omega
      show (p.1 % 1440, p.2 % 1440) = p
      rw [Nat.mod_eq_of_lt h1, Nat.mod_eq_of_lt h2]
    rw [List.map_congr_left hcong, List.map_id]
  rw [hid]
  refine ⟨fun p hp => (hmem p hp).1, ?_, hchain, by decide, by decide⟩
  apply List.Pairwise.imp ?_ hchain2
  intro p q h
  omega

/-- Witness for c8_slot_generation_amended at the configurator's default
parameters: 15-minute meetings, 8 meetings, 5-minute breaks, no lunch,
starting 09:30 (minute 570). -/
theorem c8_slot_generation_witness :
    (0 < 15 ∧ ∀ p ∈ SlotGen.gmtAux 15 8 true 5 false 0 8 0 570, p.2 < 1440) ∧
    ((∀ p ∈ SlotGen.generate_meeting_times 15 8 true 5 false 0 570,
        p.2 = p.1 + 15) ∧
      (SlotGen.generate_meeting_times 15 8 true 5 false 0 570).Pairwise
        (fun p q => p.1 < q.1) ∧
      (SlotGen.generate_meeting_times 15 8 true 5 false 0 570).Pairwise
        (fun p q => p.2 ≤ q.1) ∧
      SlotGen.generate_time_slots.Pairwise (fun s t => s.start < t.start) ∧
      SlotGen.generate_time_slots.Pairwise (fun s t => s.stop ≤ t.start)) :=
  ⟨⟨by decide, by decide⟩,
    c8_slot_generation_amended 15 8 true 5 false 0 570 (by decide) (by decide)⟩

/-- Counterexample to claim C9 as stated: src/app.py create_schedule stores
role 'Mentor', not the empty string, for a mentor record that lacks the Role
field. -/
theorem c9_missing_metadata_cex :
    (Roster.mentor_detail_of_fields [("Name", "A"), ("Date", "2025-03-04")]).role =
      "Mentor" ∧ ("Mentor" : String) ≠ "" :=
  ⟨rfl, by decide⟩

/-- Claim C9 (amended): roster construction never raises on a record with a
missing Role, Company or Bio field (both embedded builders are total
functions); a missing Company or Bio defaults to the empty string in both
src/app.py's create_schedule and refresh_mentors' convert_records_to_dataframe,
and a missing Role defaults to the empty string in
convert_records_to_dataframe but to the string 'Mentor' in src/app.py's
create_schedule. -/
theorem c9_missing_metadata_amended (fields : List (String × String)) :
    (fields.lookup "Role" = none →
      (Roster.mentor_detail_of_fields fields).role = "Mentor" ∧
      (∀ row, Roster.convert_record fields = some row → row.role = "")) ∧
    (fields.lookup "Company" = none →
      (Roster.mentor_detail_of_fields fields).company = "" ∧
      (∀ row, Roster.convert_record fields = some row → row.company = "")) ∧
    (fields.lookup "Bio" = none →
      (Roster.mentor_detail_of_fields fields).bio = "" ∧
      (∀ row, Roster.convert_record fields = some row → row.bio = "")) := by
  refine ⟨?_, ?_, ?_⟩ <;> intro h <;>
    refine ⟨by simp [Roster.mentor_detail_of_fields, Roster.lookupField, h], ?_⟩ <;>
    intro row hrow <;>
    rcases hname : fields.lookup "Name" with _ | nm <;>
    simp only [Roster.convert_record, hname] at hrow
  case _ => simp at hrow
  case _ =>
    by_cases hst : Roster.lookupField fields "Status" "" = "Booked - March 2025"
    · rw [if_pos hst] at hrow
      simp only [Option.some.injEq] at hrow
      rw [← hrow]
      simp [Roster.lookupField, h]
    · rw [if_neg hst] at hrow
      simp at hrow
  case _ => simp at hrow
  case _ =>
    by_cases hst : Roster.lookupField fields "Status" "" = "Booked - March 2025"
    · rw [if_pos hst] at hrow
      simp only [Option.some.injEq] at hrow
      rw [← hrow]
      simp [Roster.lookupField, h]
    · rw [if_neg hst] at hrow
      simp at hrow
  case _ => simp at hrow
  case _ =>
    by_cases hst : Roster.lookupField fields "Status" "" = "Booked - March 2025"
    · rw [if_pos hst] at hrow
      simp only [Option.some.injEq] at hrow
      rw [← hrow]
      simp [Roster.lookupField, h]
    · rw [if_neg hst] at hrow
      simp at hrow

/-- Witness for c9_missing_metadata_amended: a booked record with only Name
and Status fields. -/
theorem c9_missing_metadata_witness :
    (([("Name", "A"), ("Status", "Booked - March 2025")] :
        List (String × String)).lookup "Role" = none ∧
      ([("Name", "A"), ("Status", "Booked - March 2025")] :
        List (String × String)).lookup "Company" = none ∧
      ([("Name", "A"), ("Status", "Booked - March 2025")] :
        List (String × String)).lookup "Bio" = none ∧
      Roster.convert_record [("Name", "A"), ("Status", "Booked - March 2025")] =
        some ⟨"A", "", "", "", ""⟩) ∧
    (Roster.mentor_detail_of_fields
        [("Name", "A"), ("Status", "Booked - March 2025")]).role = "Mentor" ∧
    (⟨"A", "", "", "", ""⟩ : Roster.MentorRow).role = "" ∧
    (Roster.mentor_detail_of_fields
        [("Name", "A"), ("Status", "Booked - March 2025")]).company = "" ∧
    (⟨"A", "", "", "", ""⟩ : Roster.MentorRow).company = "" ∧
    (Roster.mentor_detail_of_fields
        [("Name", "A"), ("Status", "Booked - March 2025")]).bio = "" ∧
    (⟨"A", "", "", "", ""⟩ : Roster.MentorRow).bio = "" := by
  have h := c9_missing_metadata_amended [("Name", "A"), ("Status", "Booked - March 2025")]
  have h1 := h.1 (by decide)
  have h2 := h.2.1 (by decide)
  have h3 := h.2.2 (by decide)
  exact ⟨⟨by decide, by decide, by decide, rfl⟩, h1.1, h1.2 _ rfl, h2.1, h2.2 _ rfl,
    h3.1, h3.2 _ rfl⟩
